import Mathlib

/-!
Verification development for the chunked BAM quantification engine.

Shallow embedding of the engine's data model and operations, translated from
the Rust sources (src/engine.rs, src/engine/chunked_genome.rs,
src/deduplication.rs, src/barcodes.rs, src/filters.rs, src/bam_ext.rs),
followed by theorems about them.

Modelling conventions:
* Machine integers are `Nat`/`Int`; where overflow or underflow matters the
  release-mode wrapping semantics is made explicit with `% 2^w`.
* An `assert!`-style panic (which fires in every build profile) is modelled by
  the `RustRes.crash` constructor; a function that can panic returns `RustRes`.
* Rust `HashMap`s keyed by byte strings are modelled as association lists
  (lookup is key-based, so the bucket order of the hash map is irrelevant);
  Rust `HashSet` iteration, whose order is unspecified, is modelled by taking
  the enumeration order as an explicit list parameter.
-/

set_option autoImplicit false

/-- Result of running a piece of Rust code that may panic: either a crash
(an `assert!`/`expect` firing) or a normal value. -/
inductive RustRes (α : Type) where
  | crash : RustRes α
  | ok : α → RustRes α
deriving DecidableEq, Repr

/-- Bytes are modelled as natural numbers (values are < 256 in practice). -/
abbrev Byte := Nat

/-- A byte string (Rust `Vec<u8>`). -/
abbrev Bytes := List Byte

namespace Barcodes

/-!
Model of src/barcodes.rs.

`Whitelist` is `HashSet<Vec<u8>>` in the source.  Its *contents* are
order-independent, but `find_closest_by_hamming` iterates over it with
`for entry in whitelist`, whose order the Rust standard library does not
specify or freeze.  We therefore model a whitelist as the list of its
elements in the (unspecified) iteration order; membership tests ignore
that order, the scan follows it.
-/
abbrev Whitelist := List Bytes

/-- The number of mismatching positions of two byte strings (compared up
to the shorter length; only used on equal-length strings). -/
def mismatchCount (alpha beta : Bytes) : Nat :=
  (List.zip alpha beta).countP (fun p => decide (p.1 ≠ p.2))

/-- Model of `bio::alignment::distance::hamming` (external dependency of
src/barcodes.rs): the number of mismatching positions of two equal-length
byte strings.  The crate asserts that both arguments have the same length
and panics otherwise; the panic is modelled as `RustRes.crash`. -/
def hamming (alpha beta : Bytes) : RustRes Nat :=
  if alpha.length = beta.length then
    .ok (mismatchCount alpha beta)
  else
    .crash

/-- The `for entry in whitelist` scan of `find_closest_by_hamming`
(src/barcodes.rs:125-130): return the first entry with Hamming distance
`≤ max_hamming`; a panic inside `hamming` propagates. -/
def findClosestScan (maxHamming : Nat) (part : Bytes) :
    Whitelist → RustRes (Option Bytes)
  | [] => .ok none
  | entry :: rest =>
    match hamming entry part with
    | .crash => .crash
    | .ok d =>
      if d ≤ maxHamming then .ok (some entry) else findClosestScan maxHamming part rest

/-- Model of `CellBarcodes::find_closest_by_hamming` (src/barcodes.rs:116-131):
if `max_hamming = 0` return `None` (no correction allowed); otherwise scan
the whitelist in iteration order. -/
def findClosestByHamming (maxHamming : Nat) (whitelist : Whitelist) (part : Bytes) :
    RustRes (Option Bytes) :=
  if maxHamming = 0 then
    .ok none
  else
    findClosestScan maxHamming part whitelist

/-- Model of `slice::split` on a separator byte, as used by
`barcode.split(|&b| b == self.separator_char)`: splits into (possibly empty)
segments between separator occurrences. -/
def splitOnByte (sep : Byte) : Bytes → List Bytes
  | [] => [[]]
  | b :: rest =>
    if b = sep then
      [] :: splitOnByte sep rest
    else
      match splitOnByte sep rest with
      | [] => [[b]]
      | seg :: segs => (b :: seg) :: segs

/-- Configuration part of `CellBarcodes` (src/barcodes.rs:57-68) that
`correct` reads: the separator byte, the maximum Hamming distance, and the
per-segment whitelists (each in its hash-set iteration order). -/
structure CellBarcodes where
  separatorChar : Byte
  maxHamming : Nat
  whitelists : List Whitelist
deriving DecidableEq, Repr

/-- One step of the loop body of `CellBarcodes::correct` (src/barcodes.rs:95-112),
already zipped: accumulates the output for one `(part, whitelist)` pair. -/
def correctStep (cb : CellBarcodes) (out : Bytes) (part : Bytes) (wl : Whitelist) :
    RustRes (Option Bytes) :=
  if wl.contains part then
    .ok (some ((if out.isEmpty then out else out ++ [cb.separatorChar]) ++ part))
  else
    match findClosestByHamming cb.maxHamming wl part with
    | .crash => .crash
    | .ok none => .ok none
    | .ok (some corrected) =>
      .ok (some ((if out.isEmpty then out else out ++ [cb.separatorChar]) ++ corrected))

/-- The loop of `CellBarcodes::correct` over the zipped pairs. -/
def correctGo (cb : CellBarcodes) (out : Bytes) :
    List (Bytes × Whitelist) → RustRes (Option Bytes)
  | [] => .ok (some out)
  | (part, wl) :: rest =>
    match correctStep cb out part wl with
    | .crash => .crash
    | .ok none => .ok none
    | .ok (some out2) => correctGo cb out2 rest

/-- Model of `CellBarcodes::correct` (src/barcodes.rs:91-114): split the raw
barcode on the separator, zip the segments with the whitelists (Rust `zip`
truncates to the shorter side), accept each segment verbatim if it is a
member, otherwise Hamming-correct it; any segment failing both fails the
whole barcode. -/
def correct (cb : CellBarcodes) (barcode : Bytes) : RustRes (Option Bytes) :=
  correctGo cb [] ((splitOnByte cb.separatorChar barcode).zip cb.whitelists)

end Barcodes

namespace Dedup

/-!
Model of src/deduplication.rs.
-/

/-- Model of `MappingQuality` (src/deduplication.rs:69-74): the pair
(number of alignments clamped to u8, mapping quality), both `u8`. -/
structure MappingQuality where
  noOfAlignments : Nat
  mapq : Nat
deriving DecidableEq, Repr

/-- Model of `Ord for MappingQuality` (src/deduplication.rs:76-82):
compare `no_of_alignments` first, then `mapq` (lexicographic).  `mqGtB a b`
is `a > b` in that order, the test used by `accept_read`. -/
def mqGtB (a b : MappingQuality) : Bool :=
  b.noOfAlignments < a.noOfAlignments ||
    (a.noOfAlignments = b.noOfAlignments && b.mapq < a.mapq)

/-- Model of `AcceptReadResult` (src/deduplication.rs:96-100). -/
inductive AcceptReadResult where
  | duplicated : AcceptReadResult
  | new : AcceptReadResult
  | duplicateButPrefered : Nat → AcceptReadResult
deriving DecidableEq, Repr

/-- Association-list lookup, modelling `HashMap::get`. -/
def alLookup {κ : Type} [DecidableEq κ] {α : Type} (k : κ) :
    List (κ × α) → Option α
  | [] => none
  | (k2, v) :: rest => if k2 = k then some v else alLookup k rest

/-- Association-list store, modelling both arms of the `accept_read` match:
overwrite the entry when the key is present (`get_mut` + assignment),
append it when absent (`insert` on a missing key). -/
def alStore {κ : Type} [DecidableEq κ] {α : Type} (k : κ) (v : α) :
    List (κ × α) → List (κ × α)
  | [] => [(k, v)]
  | (k2, v2) :: rest =>
    if k2 = k then (k2, v) :: rest else (k2, v2) :: alStore k v rest

/-- Model of `DedupPerBucket` (src/deduplication.rs:90-94); the hash maps
become association lists keyed by the identity key. -/
inductive DedupPerBucket where
  | noDedup : DedupPerBucket
  | umi : List (Bytes × (Nat × MappingQuality)) → DedupPerBucket
  | singleCell : List ((Bytes × Bytes) × (Nat × MappingQuality)) → DedupPerBucket
deriving DecidableEq, Repr

/-- The common contest step shared verbatim by the `Umi` and `SingleCell`
arms of `accept_read` (src/deduplication.rs:120-136 and 156-172): on a hit,
evict iff the incoming priority is strictly greater; on a miss, insert. -/
def contest {κ : Type} [DecidableEq κ] (map : List (κ × (Nat × MappingQuality)))
    (key : κ) (thisIndex : Nat) (thisMq : MappingQuality) :
    AcceptReadResult × List (κ × (Nat × MappingQuality)) :=
  match alLookup key map with
  | some (oldIndex, mq) =>
    if mqGtB thisMq mq then
      (.duplicateButPrefered oldIndex, alStore key (thisIndex, thisMq) map)
    else
      (.duplicated, map)
  | none => (.new, alStore key (thisIndex, thisMq) map)

/-- The `MappingQuality` built from a record inside `accept_read`
(src/deduplication.rs:116-118 and 152-155): the alignment count clamped to
255 (`try_into().unwrap_or(255)` on a `u32`) paired with the mapping
quality. -/
def recordMq (noOfAlignments mapq : Nat) : MappingQuality :=
  ⟨min noOfAlignments 255, mapq⟩

/-- Model of `DedupPerBucket::accept_read` (src/deduplication.rs:102-176).
`noOfAlignments` and `mapq` are the record fields it reads.  The `expect`
calls on a missing UMI or barcode are modelled as `RustRes.crash`. -/
def acceptRead (bucket : DedupPerBucket) (thisIndex : Nat)
    (noOfAlignments mapq : Nat) (umi barcode : Option Bytes) :
    RustRes (AcceptReadResult × DedupPerBucket) :=
  match bucket with
  | .noDedup => .ok (.new, .noDedup)
  | .umi map =>
    match umi with
    | none => .crash
    | some u =>
      let (res, map2) := contest map u thisIndex (recordMq noOfAlignments mapq)
      .ok (res, .umi map2)
  | .singleCell map =>
    match umi with
    | none => .crash
    | some u =>
      match barcode with
      | none => .crash
      | some bc =>
        let (res, map2) := contest map (u, bc) thisIndex (recordMq noOfAlignments mapq)
        .ok (res, .singleCell map2)

end Dedup

namespace ChunkedGenome

/-!
Model of src/engine/chunked_genome.rs.

A region of the chunking tree is a half-open interval `[start, end)` on one
reference; `ChunkedGenomeIterator::next` asks the interval tree for any
interval overlapping `stop..stop+1`, i.e. any region with
`start ≤ stop < end`.  We model the per-reference tree as the list of its
regions and the query as the first match in that list (which straddling
region is picked does not affect any property proved here).

Coordinates are `u32` in the source; they are modelled as `Nat`.  (The
additions `last_start + chunk_size` and `iv.end + 1` could overflow `u32`
only for references longer than `2^32 - chunk_size` bases, which the
surrounding code already excludes by converting reference lengths to `u32`.)
-/

/-- A region interval `[start, end)` used for chunk-boundary extension. -/
abbrev Region := Nat × Nat

/-- The chunk size constant of `ChunkedGenomeIterator::next`
(src/engine/chunked_genome.rs:121). -/
def chunkSize : Nat := 10000000

/-- The tree query `next_tree.find(stop..stop+1).next()`
(src/engine/chunked_genome.rs:142): some region with `start ≤ stop < end`,
if any. -/
def findStraddle (regions : List Region) (stop : Nat) : Option Region :=
  regions.find? (fun r => r.1 ≤ stop && stop < r.2)

/-- The stop-extension loop of `ChunkedGenomeIterator::next`
(src/engine/chunked_genome.rs:137-153), written with explicit fuel: while
some region straddles `stop`, move `stop` to one past that region's end.
`extendStop` below supplies fuel `regions.length`, which is proved
sufficient (`findStraddle_extendStop`). -/
def extendStopGo (regions : List Region) : Nat → Nat → Nat
  | 0, stop => stop
  | fuel + 1, stop =>
    match findStraddle regions stop with
    | none => stop
    | some r => extendStopGo regions fuel (r.2 + 1)

/-- The stop-extension loop, with enough fuel to reach its fixpoint. -/
def extendStop (regions : List Region) (stop : Nat) : Nat :=
  extendStopGo regions regions.length stop

/-- A chunk `[start, stop)`; the reference name and tid of the source
`Chunk` struct play no role in the chunk-bound invariants and are omitted. -/
structure Chunk where
  start : Nat
  stop : Nat
deriving DecidableEq, Repr

/-- The per-reference chunk emission loop of `ChunkedGenomeIterator::next`
(src/engine/chunked_genome.rs:120-163), with explicit fuel: while
`last_start < reference length`, emit `[start, extendStop (start + chunkSize))`
and continue at the emitted stop.  Each step advances `start` by at least
one, so fuel `chrLength` (supplied by `chunksForReference`) is sufficient
(`chunksGo_fuel_free`). -/
def chunksGo (regions : List Region) (chrLength : Nat) : Nat → Nat → List Chunk
  | 0, _ => []
  | fuel + 1, start =>
    if chrLength ≤ start then []
    else
      let stop := extendStop regions (start + chunkSize)
      ⟨start, stop⟩ :: chunksGo regions chrLength fuel stop

/-- All chunks emitted for one reference of length `chrLength` whose
chunking tree holds `regions`. -/
def chunksForReference (regions : List Region) (chrLength : Nat) : List Chunk :=
  chunksGo regions chrLength chrLength 0

/-- The number of regions that can still straddle any future stop value. -/
def openRegionCount (regions : List Region) (stop : Nat) : Nat :=
  regions.countP (fun r => decide (stop < r.2))

end ChunkedGenome

namespace Intervals

/-!
Model of `merged_interval_length` (src/engine.rs:1801-1822).

The source takes `&mut [Range<u32>]`, sorts it in place by
`(start, then end)` (`slice::sort_by`, modelled as insertion sort — only
sortedness and permutation matter), then sweeps, merging whenever the next
start is `≤` the current end, and accumulates `(current_end -
current_start) as usize` per run.  `current_end - current_start` is a `u32`
subtraction (wrapping in release builds, modelled by `sub32`); the `usize`
accumulator is modelled with its `% 2^64` wrap.
-/
def U32 : Nat := 2 ^ 32

def U64 : Nat := 2 ^ 64

/-- Wrapping `u32` subtraction (release-build semantics of `a - b`). -/
def sub32 (a b : Nat) : Nat := (a % U32 + U32 - b % U32) % U32

/-- The sort comparator `a.start.cmp(&b.start).then_with(|| a.end.cmp(&b.end))`
as a `≤` test. -/
def ivLe (a b : Nat × Nat) : Bool :=
  a.1 < b.1 || (a.1 = b.1 && a.2 ≤ b.2)

def insertIv (a : Nat × Nat) : List (Nat × Nat) → List (Nat × Nat)
  | [] => [a]
  | b :: t => if ivLe a b then a :: b :: t else b :: insertIv a t

/-- In-place `sort_by` on the interval slice, as insertion sort. -/
def sortIvs : List (Nat × Nat) → List (Nat × Nat)
  | [] => []
  | a :: t => insertIv a (sortIvs t)

/-- The sweep loop of `merged_interval_length`, with the `usize` accumulator
`total` and the `u32` run-length subtraction taken verbatim. -/
def sweepU (cs ce total : Nat) : List (Nat × Nat) → Nat
  | [] => (total + sub32 ce cs) % U64
  | (s, e) :: rest =>
    if s ≤ ce then
      sweepU cs (max ce e) total rest
    else
      sweepU s e ((total + sub32 ce cs) % U64) rest

/-- Model of `merged_interval_length` (src/engine.rs:1801-1822). -/
def mergedIntervalLength (ivs : List (Nat × Nat)) : Nat :=
  match sortIvs ivs with
  | [] => 0
  | iv :: rest => sweepU iv.1 iv.2 0 rest

/-- The integer points covered by a list of half-open intervals. -/
def points : List (Nat × Nat) → Finset Nat
  | [] => ∅
  | iv :: rest => Finset.Ico iv.1 iv.2 ∪ points rest

/-- Exact (non-wrapping) version of the sweep, used as the bridge to the
set-cardinality specification. -/
def sweepNat (cs ce : Nat) : List (Nat × Nat) → Nat
  | [] => ce - cs
  | (s, e) :: rest =>
    if s ≤ ce then
      sweepNat cs (max ce e) rest
    else
      (ce - cs) + sweepNat s e rest

end Intervals

namespace Engine

/-!
Model of the per-chunk worker loop body of `Engine::read_until_next_pos`
(src/engine.rs:1109-1296) together with the pieces of src/filters.rs,
src/bam_ext.rs and `CounterPerChunk`/`Output` (src/engine.rs:189-290 and
400-431) it drives.

A `ReadRec` carries exactly the record data the loop body consumes.  The
results of the configured extractors (which only read the record) are
carried as fields (`barcodeExtract`, `umiExtract`), and so are the matcher
hits (`hitsCorrect`/`hitsReverse` are the token lists `matcher.hits`
produces for the record); extractor and matcher errors abort the whole
chunk before anything is flushed and are outside this model.

The streaming bookkeeping of `read_until_next_pos` (`last_read_pos`,
`current_pos`, and the `split_off` flushing in the caller at
src/engine.rs:928-978) only schedules *when* each per-position bucket is
flushed; every fetched record is processed exactly once and every bucket
is flushed exactly once (a repeat flush panics), so the model processes
the fetched records in order and then flushes all buckets.
-/

/-- CIGAR operation kinds (rust_htslib `Cigar`). -/
inductive CigarOp where
  | match0 : CigarOp
  | ins : CigarOp
  | del : CigarOp
  | refSkip : CigarOp
  | softClip : CigarOp
  | hardClip : CigarOp
  | pad : CigarOp
  | equal : CigarOp
  | diff : CigarOp
deriving DecidableEq, Repr

/-- The record fields read by the loop body. -/
structure ReadRec where
  pos : Nat
  cigar : List (CigarOp × Nat)
  reverse : Bool
  mapq : Nat
  noOfAlignments : Nat
  secondary : Bool
  firstInTemplate : Bool
  lastInTemplate : Bool
  barcodeExtract : Option Bytes
  umiExtract : Option Bytes
  hitsCorrect : List Nat
  hitsReverse : List Nat
deriving DecidableEq, Repr

/-- rust_htslib `CigarStringView::leading_softclips`: the summed length of
the leading soft-clip operations. -/
def leadingSoftclips (read : ReadRec) : Nat :=
  ((read.cigar.takeWhile (fun c => c.1 = CigarOp.softClip)).map (fun c => c.2)).sum

/-- `i32::MIN`, the saturation point of `saturating_sub`. -/
def i32Min : Int := -(2 ^ 31)

/-- Model of `BamRecordExtensions::corrected_pos` (src/bam_ext.rs:35-48):
panic if the leading soft-clip length exceeds `max_skip_len`, else the raw
position minus the clip length (`i32` saturating subtraction; the raw
position of an aligned read is non-negative, so the `None` branch for a
negative raw position cannot fire here). -/
def correctedPos (read : ReadRec) (maxSkipLen : Nat) : RustRes Int :=
  let skip := leadingSoftclips read
  if maxSkipLen < skip then .crash
  else .ok (max ((read.pos : Int) - (skip : Int)) i32Min)

/-- Model of `Bucket` (the `bucket_mode` of src/engine.rs:919-926):
per-position, or per-reference with the fixed key `chunk.stop + max_skip_len`. -/
inductive Bucket where
  | perPosition : Bucket
  | perReference : Int → Bucket
deriving DecidableEq, Repr

/-- Lines 1138-1150 of src/engine.rs: the pair
`(corrected_position, position_for_bounds_check)`. -/
def positionPair (bucketMode : Bucket) (maxSkipLen : Nat) (read : ReadRec) :
    RustRes (Int × Int) :=
  match bucketMode with
  | .perPosition =>
    if 0 < maxSkipLen then
      match correctedPos read maxSkipLen with
      | .crash => .crash
      | .ok rp => .ok (rp, rp)
    else
      .ok ((read.pos : Int), (read.pos : Int))
  | .perReference l => .ok (l, (read.pos : Int))

/-- The `NotInRegion` test of src/engine.rs:1171-1175:
`(chunk.start > 0 && pbc < chunk.start) || (pbc >= chunk.stop)`. -/
def boundsReject (chunkStart chunkStop : Nat) (pbc : Int) : Bool :=
  (decide (0 < chunkStart) && decide (pbc < (chunkStart : Int))) ||
    decide ((chunkStop : Int) ≤ pbc)

/-- Model of `KeepOrRemove` (src/filters.rs:8-14). -/
inductive KeepOrRemove where
  | keep : KeepOrRemove
  | remove : KeepOrRemove
deriving DecidableEq, Repr

/-- Model of the `Filter` enum (src/filters.rs:44-67); each variant keeps
its `action` field.  The `Reference` filter's reference list is irrelevant
to `remove_read` (which ignores it) and is dropped. -/
inductive Filter where
  | multiMapper : KeepOrRemove → Filter
  | nonPrimary : KeepOrRemove → Filter
  | read1 : KeepOrRemove → Filter
  | read2 : KeepOrRemove → Filter
  | spliced : KeepOrRemove → Filter
  | reference : KeepOrRemove → Filter
  | nInUmi : KeepOrRemove → Filter
deriving DecidableEq, Repr

/-- `keep` inverts a hit, `remove` passes it through (the common
`match self.action` of every filter). -/
def applyAction (action : KeepOrRemove) (hit : Bool) : Bool :=
  match action with
  | .keep => !hit
  | .remove => hit

/-- Model of `ReadFilter::remove_read` for each `Filter` variant
(src/filters.rs): `MultiMapper` tests alignment count > 1; `NonPrimary`,
`Read1`, `Read2` test their flag and remove only on `Remove`; `Spliced`
tests for a reference skip after the first CIGAR op; `Reference` always
returns `false` (src/filters.rs:178-187, chunk-level filtering already
happened); `NInUmi` does not override `remove_read`, so the trait default
`false` applies (src/filters.rs:28-30 and 195-216). -/
def removeRead (f : Filter) (read : ReadRec) : Bool :=
  match f with
  | .multiMapper action => applyAction action (decide (1 < read.noOfAlignments))
  | .nonPrimary action => if read.secondary then decide (action = .remove) else false
  | .read1 action => if read.firstInTemplate then decide (action = .remove) else false
  | .read2 action => if read.lastInTemplate then decide (action = .remove) else false
  | .spliced action =>
    applyAction action ((read.cigar.drop 1).any (fun c => decide (c.1 = CigarOp.refSkip)))
  | .reference _ => false
  | .nInUmi _ => false

/-- Model of `ReadFilter::remove_read_after_annotation`: only `NInUmi`
overrides the trait default `false` (src/filters.rs:195-216); it removes
(under `Remove`) iff the extracted UMI contains the byte `b'N'` (78). -/
def removeReadAfterAnnotation (f : Filter) (_read : ReadRec)
    (_barcode umi : Option Bytes) (_hitsCorrect _hitsReverse : List Nat) : Bool :=
  match f with
  | .nInUmi action =>
    match umi with
    | some u => applyAction action (u.any (fun x => decide (x = 78)))
    | none => false
  | _ => false

/-- Model of `Hits` (src/engine.rs:140-144); tokens are small integers. -/
structure Hits where
  correct : List Nat
  reverse : List Nat
deriving DecidableEq, Repr

/-- Model of `AnnotatedReadInfo` (src/engine.rs:146-155). -/
structure AnnotatedReadInfo where
  correctedPosition : Int
  hits : Hits
  umi : Option Bytes
  barcode : Option Bytes
  mappingPriority : Nat × Nat
  reverse : Bool
deriving DecidableEq, Repr

/-- Model of `AnnotatedRead` (src/engine.rs:127-138). -/
inductive AnnotatedRead where
  | filtered : AnnotatedRead
  | notInRegion : AnnotatedRead
  | counted : AnnotatedReadInfo → AnnotatedRead
  | duplicate : AnnotatedRead
  | noBarcode : AnnotatedRead
  | noUMI : AnnotatedRead
  | barcodeNotInWhitelist : Bytes → AnnotatedRead
deriving DecidableEq, Repr

/-- Model of `DeduplicationMode` (src/deduplication.rs:54-67). -/
inductive DedupMode where
  | noDedup : DedupMode
  | umi : DedupMode
  | singleCell : DedupMode
deriving DecidableEq, Repr

/-- Model of `DeduplicationStrategy::new_bucket` (src/deduplication.rs:18-24). -/
def newBucket : DedupMode → Dedup.DedupPerBucket
  | .noDedup => .noDedup
  | .umi => .umi []
  | .singleCell => .singleCell []

/-- Model of `PerPosition` (the per-coordinate bucket of the worker):
forward and reverse entry lists of `(AnnotatedRead, original index)` plus
the deduplication state. -/
structure PerPosition where
  readsForward : List (AnnotatedRead × Nat)
  readsReverse : List (AnnotatedRead × Nat)
  dedupStorage : Dedup.DedupPerBucket
deriving DecidableEq, Repr

/-- The engine configuration consumed by the loop body: the chunk bounds,
the clipping window (`max_skip_len`, already forced to 0 when
`correct_reads_for_clipping` is off, src/engine.rs:877-882), the bucket
mode, the filter pipeline, the optional barcode corrector, whether a UMI
extractor is configured, and the deduplication mode. -/
structure Cfg where
  chunkStart : Nat
  chunkStop : Nat
  maxSkipLen : Nat
  bucketMode : Bucket
  filters : List Filter
  cellBarcodes : Option Barcodes.CellBarcodes
  umiEnabled : Bool
  dedupMode : DedupMode
deriving DecidableEq, Repr

/-- The worker state threaded through the loop: the per-position map
(`read_catcher`, a map from corrected position to bucket, modelled as an
association list — only per-key access matters) and the running original
stream index. -/
structure ChunkState where
  readCatcher : List (Int × PerPosition)
  orgIndex : Nat
deriving DecidableEq, Repr

/-- What one loop iteration does to the bucket list of the current read's
orientation: push one annotated entry, or (on a preferred duplicate) mark
the entry at `idx` as `Duplicate` and push the new `Counted` entry. -/
inductive ReadAction where
  | push : AnnotatedRead → ReadAction
  | evict : Nat → AnnotatedReadInfo → ReadAction
deriving DecidableEq, Repr

/-- The annotation the current read receives under a `ReadAction`. -/
def annOfAction : ReadAction → AnnotatedRead
  | .push ann => ann
  | .evict _ info => .counted info

/-- The early-exit chain of the loop body (src/engine.rs:1171-1294), as a
decision: given the dedup state and the current length of the orientation's
entry list, produce the action on that list and the new dedup state.
Mirrors, in order: the bounds check, the filter pipeline, barcode
extraction and correction, UMI extraction, and the deduplication contest.
A panic inside `correct` or `accept_read` propagates as `.crash`. -/
def decideRead (cfg : Cfg) (dedup : Dedup.DedupPerBucket) (resLen : Nat)
    (correctedPosition pbc : Int) (read : ReadRec) :
    RustRes (ReadAction × Dedup.DedupPerBucket) :=
  if boundsReject cfg.chunkStart cfg.chunkStop pbc then
    .ok (.push .notInRegion, dedup)
  else if cfg.filters.any (fun f => removeRead f read) then
    .ok (.push .filtered, dedup)
  else
    match barcodeStep cfg read with
    | .crash => .crash
    | .ok (.inr ann) => .ok (.push ann, dedup)
    | .ok (.inl barcode) =>
      match umiStep cfg read with
      | .inr ann => .ok (.push ann, dedup)
      | .inl umi =>
        match Dedup.acceptRead dedup resLen read.noOfAlignments read.mapq umi barcode with
        | .crash => .crash
        | .ok (outcome, dedup2) =>
          let info : AnnotatedReadInfo :=
            { correctedPosition := correctedPosition
              hits := { correct := read.hitsCorrect, reverse := read.hitsReverse }
              umi := umi
              barcode := barcode
              mappingPriority := (min read.noOfAlignments 255, read.mapq)
              reverse := read.reverse }
          match outcome with
          | .duplicated => .ok (.push .duplicate, dedup2)
          | .new => .ok (.push (.counted info), dedup2)
          | .duplicateButPrefered idx => .ok (.evict idx info, dedup2)
where
  /-- Lines 1198-1229: barcode extraction and correction; `inl` carries the
  (optional) corrected barcode onwards, `inr` is an early exit. -/
  barcodeStep (cfg : Cfg) (read : ReadRec) :
      RustRes (Option Bytes ⊕ AnnotatedRead) :=
    match cfg.cellBarcodes with
    | some cb =>
      match read.barcodeExtract with
      | some uncorrected =>
        match Barcodes.correct cb uncorrected with
        | .crash => .crash
        | .ok (some bc) => .ok (.inl (some bc))
        | .ok none => .ok (.inr (.barcodeNotInWhitelist uncorrected))
      | none => .ok (.inr .noBarcode)
    | none => .ok (.inl none)
  /-- Lines 1230-1242: UMI extraction. -/
  umiStep (cfg : Cfg) (read : ReadRec) : Option Bytes ⊕ AnnotatedRead :=
    if cfg.umiEnabled then
      match read.umiExtract with
      | some u => .inl (some u)
      | none => .inr .noUMI
    else
      .inl none

/-- Replace the entry list of the read's orientation and the dedup state
in a bucket. -/
def setRes (pp : PerPosition) (rev : Bool) (res : List (AnnotatedRead × Nat))
    (dedup : Dedup.DedupPerBucket) : PerPosition :=
  if rev then
    { pp with readsReverse := res, dedupStorage := dedup }
  else
    { pp with readsForward := res, dedupStorage := dedup }

/-- Apply a `ReadAction` to the bucket (src/engine.rs:1184, 1192, 1209-1224,
1235-1238, 1250-1293): push the annotated entry with the current original
index; for `evict`, first overwrite `res[idx]` with `Duplicate`, keeping
the stored original index (`res[idx_to_set_duplicate]` panics — `.crash` —
when `idx` is out of bounds). -/
def applyReadAction (pp : PerPosition) (rev : Bool) (orgIndex : Nat)
    (act : ReadAction) (dedup2 : Dedup.DedupPerBucket) : RustRes PerPosition :=
  let res := if rev then pp.readsReverse else pp.readsForward
  match act with
  | .push ann => .ok (setRes pp rev (res ++ [(ann, orgIndex)]) dedup2)
  | .evict idx info =>
    match res[idx]? with
    | none => .crash
    | some old =>
      .ok (setRes pp rev
        ((res.set idx (.duplicate, old.2)) ++ [(.counted info, orgIndex)]) dedup2)

/-- One iteration of the fetch loop of `read_until_next_pos` for one
record: compute the position pair, look up (or create, as
`entry().or_insert_with`) the bucket at the corrected position, run the
decision chain, apply it, store the bucket back, and advance `org_index`.
Returns the annotation this record received together with the new state. -/
def processRead (cfg : Cfg) (st : ChunkState) (read : ReadRec) :
    RustRes (AnnotatedRead × ChunkState) :=
  match positionPair cfg.bucketMode cfg.maxSkipLen read with
  | .crash => .crash
  | .ok (correctedPosition, pbc) =>
    let pp := (Dedup.alLookup correctedPosition st.readCatcher).getD
      ⟨[], [], newBucket cfg.dedupMode⟩
    let res := if read.reverse then pp.readsReverse else pp.readsForward
    match decideRead cfg pp.dedupStorage res.length correctedPosition pbc read with
    | .crash => .crash
    | .ok (act, dedup2) =>
      match applyReadAction pp read.reverse st.orgIndex act dedup2 with
      | .crash => .crash
      | .ok pp2 =>
        .ok (annOfAction act,
          { readCatcher := Dedup.alStore correctedPosition pp2 st.readCatcher
            orgIndex := st.orgIndex + 1 })

/-- The record stream of one chunk, processed in input order. -/
def processAll (cfg : Cfg) : ChunkState → List ReadRec → RustRes ChunkState
  | st, [] => .ok st
  | st, read :: rest =>
    match processRead cfg st read with
    | .crash => .crash
    | .ok (_, st2) => processAll cfg st2 rest

/-- The fresh worker state (src/engine.rs:894, 916). -/
def initialState : ChunkState := ⟨[], 0⟩

/-- The statistics category charged for an `AnnotatedRead` by
`CounterPerChunk::count_reads` (src/engine.rs:209-237); `NotInRegion`
reads map to the pseudo-category `overfetch`, which is not counted. -/
def categoryOf : AnnotatedRead → String
  | .counted info =>
    match info.hits.correct.isEmpty, info.hits.reverse.isEmpty with
    | true, true => "outside"
    | false, true => "correct"
    | true, false => "reverse"
    | false, false => "ambiguous"
  | .filtered => "filtered"
  | .notInRegion => "overfetch"
  | .duplicate => "duplicate"
  | .noBarcode => "no_barcode"
  | .noUMI => "no_umi"
  | .barcodeNotInWhitelist _ => "barcode_not_in_whitelist"

/-- `*stat_counter.entry(k).or_default() += 1` on a counter modelled as a
function from category names to counts. -/
def bumpStat (sc : String → Nat) (k : String) : String → Nat :=
  fun s => if s = k then sc s + 1 else sc s

/-- `usize::saturating_add` (the per-chunk tally increment). -/
def satAdd64 (a b : Nat) : Nat := min (a + b) (Intervals.U64 - 1)

/-- Wrapping `usize` addition (release-build semantics of the `+=` in the
global merge). -/
def wrapAdd64 (a b : Nat) : Nat := (a + b) % Intervals.U64

/-- `counter.entry(gene).or_insert((0,0)); entry.0 = entry.0.saturating_add(1)`
(src/engine.rs:212-215). -/
def bumpCorrect (counter : List (Nat × (Nat × Nat))) (gene : Nat) :
    List (Nat × (Nat × Nat)) :=
  let e := (Dedup.alLookup gene counter).getD (0, 0)
  Dedup.alStore gene (satAdd64 e.1 1, e.2) counter

/-- Same for the reverse component (src/engine.rs:216-219). -/
def bumpReverse (counter : List (Nat × (Nat × Nat))) (gene : Nat) :
    List (Nat × (Nat × Nat)) :=
  let e := (Dedup.alLookup gene counter).getD (0, 0)
  Dedup.alStore gene (e.1, satAdd64 e.2 1) counter

/-- Model of `CounterPerChunk::PerRegion` (src/engine.rs:189-198): the
per-gene tally (keyed by interner token) and the statistics counter. -/
structure CounterPerChunk where
  counter : List (Nat × (Nat × Nat))
  statCounter : String → Nat

/-- Processing of one annotated entry by `CounterPerChunk::count_reads`
(src/engine.rs:208-242, `PerRegion` arm): a `Counted` read bumps the
per-gene tallies for each hit, then exactly one statistics category is
charged — unless the category is `overfetch` (`NotInRegion`), which is
skipped. -/
def countOneRead (c : CounterPerChunk) (read : AnnotatedRead) : CounterPerChunk :=
  let c2 : CounterPerChunk :=
    match read with
    | .counted info =>
      { c with counter :=
          (info.hits.reverse.foldl bumpReverse
            (info.hits.correct.foldl bumpCorrect c.counter)) }
    | _ => c
  if categoryOf read = "overfetch" then c2
  else { c2 with statCounter := bumpStat c2.statCounter (categoryOf read) }

/-- `CounterPerChunk::count_reads` over one entry list. -/
def countReads (c : CounterPerChunk) (entries : List (AnnotatedRead × Nat)) :
    CounterPerChunk :=
  entries.foldl (fun acc e => countOneRead acc e.1) c

/-- `capture_read_block` for every bucket (src/engine.rs:1035-1050 driven
by 943-953 and 957-978): each bucket's forward list, then its reverse
list, is fed to `count_reads`; every bucket is flushed exactly once. -/
def flushChunk (c : CounterPerChunk) (catcher : List (Int × PerPosition)) :
    CounterPerChunk :=
  catcher.foldl
    (fun acc kv => countReads (countReads acc kv.2.readsForward) kv.2.readsReverse) c

/-- The fixed statistics category set (src/engine.rs:318-328). -/
def statCategories : List String :=
  ["ambiguous", "correct", "reverse", "outside", "duplicate",
   "no_barcode", "no_umi", "barcode_not_in_whitelist", "filtered"]

/-- The total over all statistics categories. -/
def statSum (sc : String → Nat) : Nat := (statCategories.map sc).sum

/-- Model of the per-gene part of `Output::count_reads` (src/engine.rs:
413-431): each incoming per-chunk tally entry is added to the global entry
with plain (wrapping) `+=`, not `saturating_add`.  The interner resolution
of the token key is a per-chunk injective renaming and is left out. -/
def mergeCounts (global incoming : List (Nat × (Nat × Nat))) :
    List (Nat × (Nat × Nat)) :=
  incoming.foldl
    (fun g kv =>
      let e := (Dedup.alLookup kv.1 g).getD (0, 0)
      Dedup.alStore kv.1 (wrapAdd64 e.1 kv.2.1, wrapAdd64 e.2 kv.2.2) g)
    global

/-- Total number of annotated entries held in the per-position map. -/
def totalEntries (catcher : List (Int × PerPosition)) : Nat :=
  (catcher.map (fun kv => kv.2.readsForward.length + kv.2.readsReverse.length)).sum

/-- Number of entries flagged `NotInRegion` in one entry list. -/
def nirOfList (entries : List (AnnotatedRead × Nat)) : Nat :=
  entries.countP (fun e => decide (e.1 = AnnotatedRead.notInRegion))

/-- Number of entries flagged `NotInRegion` in the per-position map. -/
def nirCount (catcher : List (Int × PerPosition)) : Nat :=
  (catcher.map (fun kv => nirOfList kv.2.readsForward + nirOfList kv.2.readsReverse)).sum

end Engine

namespace Dedup

/-- One incoming deduplication candidate: the arguments of one
`accept_read` call (src/deduplication.rs:103-108), with the record
replaced by the two fields the contest reads. -/
structure Candidate where
  thisIndex : Nat
  noOfAlignments : Nat
  mapq : Nat
  umi : Option Bytes
  barcode : Option Bytes
deriving DecidableEq, Repr

/-- A sequence of `accept_read` calls against one bucket. -/
def acceptMany (bucket : DedupPerBucket) : List Candidate → RustRes DedupPerBucket
  | [] => .ok bucket
  | c :: rest =>
    match acceptRead bucket c.thisIndex c.noOfAlignments c.mapq c.umi c.barcode with
    | .crash => .crash
    | .ok (_, b2) => acceptMany b2 rest

/-- The same sequence at the level of the shared contest step: a fold of
`contest` over `(key, index, priority)` triples. -/
def contestMany {κ : Type} [DecidableEq κ]
    (map : List (κ × (Nat × MappingQuality))) :
    List (κ × Nat × MappingQuality) → List (κ × (Nat × MappingQuality))
  | [] => map
  | c :: rest => contestMany (contest map c.1 c.2.1 c.2.2).2 rest

end Dedup

namespace Engine

/-- Number of annotated entries held in one bucket. -/
def ppSize (pp : PerPosition) : Nat :=
  pp.readsForward.length + pp.readsReverse.length

/-- Model of `Output::per_chunk` for the per-region output
(src/engine.rs:387-392): fresh empty tallies. -/
def perChunkFresh : CounterPerChunk :=
  { counter := [], statCounter := fun _ => 0 }

/-- The position the bounds check actually uses, as established by the
amended claim C1: the clipping-corrected position under per-position
bucketing with a positive clipping window, the raw position otherwise. -/
def boundsPosition (cfg : Cfg) (read : ReadRec) : Int :=
  match cfg.bucketMode with
  | .perReference _ => (read.pos : Int)
  | .perPosition =>
    if 0 < cfg.maxSkipLen then
      max ((read.pos : Int) - (leadingSoftclips read : Int)) i32Min
    else
      (read.pos : Int)

/-- The chunk configuration of the C1 counterexample: an interior chunk
`[1000000, 2000000)` with per-position bucketing and clipping correction
enabled (`max_skip_len = 150`). -/
def cfgC1 : Cfg :=
  ⟨1000000, 2000000, 150, Bucket.perPosition, [], none, false, DedupMode.noDedup⟩

/-- The record of the C1 counterexample: raw position 1000005 (inside the
chunk) with a 10-base leading soft-clip, so its corrected position 999995
falls before the chunk start. -/
def readC1 : ReadRec :=
  ⟨1000005, [(CigarOp.softClip, 10), (CigarOp.match0, 90)], false, 40, 1,
    false, false, false, none, none, [0], []⟩

/-- The worker state after processing `readC1` in `cfgC1`. -/
def stC1 : ChunkState :=
  ⟨[(999995, ⟨[(AnnotatedRead.notInRegion, 0)], [], Dedup.DedupPerBucket.noDedup⟩)], 1⟩

/-- The configuration of the C7 failing input: an `n_in_umi`/`remove`
filter, a UMI extractor, chunk `[0, 1000)`. -/
def cfgC7 : Cfg :=
  ⟨0, 1000, 0, Bucket.perPosition, [Filter.nInUmi KeepOrRemove.remove],
    none, true, DedupMode.noDedup⟩

/-- The C7 failing record: its extracted UMI is `NA` (bytes 78, 65),
containing the ambiguity byte `N`. -/
def readC7 : ReadRec :=
  ⟨5, [(CigarOp.match0, 50)], false, 40, 1, false, false, false, none,
    some [78, 65], [0], []⟩

/-- The annotation the engine actually assigns to `readC7`: `Counted`. -/
def infoC7 : AnnotatedReadInfo :=
  ⟨5, ⟨[0], []⟩, some [78, 65], none, (1, 40), false⟩

/-- The worker state after processing `readC7` in `cfgC7`. -/
def stC7 : ChunkState :=
  ⟨[(5, ⟨[(AnnotatedRead.counted infoC7, 0)], [], Dedup.DedupPerBucket.noDedup⟩)], 1⟩

/-- The configuration of the C2 witness: chunk `[0, 10)`, no filters, no
extractors, no deduplication. -/
def cfgW2 : Cfg :=
  ⟨0, 10, 0, Bucket.perPosition, [], none, false, DedupMode.noDedup⟩

/-- C2 witness record landing inside the chunk. -/
def readW1 : ReadRec :=
  ⟨2, [(CigarOp.match0, 50)], false, 30, 1, false, false, false, none, none, [0], []⟩

/-- C2 witness record fetched beyond the chunk stop (`NotInRegion`). -/
def readW2 : ReadRec :=
  ⟨15, [(CigarOp.match0, 50)], false, 30, 1, false, false, false, none, none, [], []⟩

/-- The worker state after the two C2 witness records. -/
def stW2 : ChunkState :=
  ⟨[(2, ⟨[(AnnotatedRead.counted ⟨2, ⟨[0], []⟩, none, none, (1, 30), false⟩, 0)],
      [], Dedup.DedupPerBucket.noDedup⟩),
    (15, ⟨[(AnnotatedRead.notInRegion, 1)], [], Dedup.DedupPerBucket.noDedup⟩)], 2⟩

/-- A per-chunk tally whose gene-3 forward count sits at the `usize`
maximum (C8 witness). -/
def cW8 : CounterPerChunk :=
  ⟨[(3, (Intervals.U64 - 1, 7))], fun _ => 0⟩

/-- One `Counted` entry hitting gene 3 forward (C8 witness). -/
def entriesW8 : List (AnnotatedRead × Nat) :=
  [(AnnotatedRead.counted ⟨0, ⟨[3], []⟩, none, none, (1, 30), false⟩, 0)]

end Engine

namespace Barcodes

/-- C6 counterexample whitelist in one enumeration order: `AAAA`, `AAAT`. -/
def wlA : Whitelist := [[65, 65, 65, 65], [65, 65, 65, 84]]

/-- The same whitelist contents in the other enumeration order. -/
def wlB : Whitelist := [[65, 65, 65, 84], [65, 65, 65, 65]]

/-- Corrector over `wlA` with separator `_` and `max_hamming = 1`. -/
def cbA : CellBarcodes := ⟨95, 1, [wlA]⟩

/-- Corrector over `wlB` (same set, other order). -/
def cbB : CellBarcodes := ⟨95, 1, [wlB]⟩

/-- The C6 counterexample segment `AAAC`, at Hamming distance 1 from both
whitelist entries. -/
def segAAAC : Bytes := [65, 65, 65, 67]

end Barcodes

namespace Dedup

/-- The `(key, index, priority)` triples of a candidate sequence in umi
mode: keyed by the UMI, with the priority built as in `accept_read`. -/
def keyedCandidatesUmi (cs : List Candidate) : List (Bytes × Nat × MappingQuality) :=
  cs.map fun c => (c.umi.getD [], c.thisIndex, recordMq c.noOfAlignments c.mapq)

/-- The same in singlecell mode: keyed by the (UMI, barcode) pair. -/
def keyedCandidatesSC (cs : List Candidate) :
    List ((Bytes × Bytes) × Nat × MappingQuality) :=
  cs.map fun c =>
    ((c.umi.getD [], c.barcode.getD []), c.thisIndex, recordMq c.noOfAlignments c.mapq)

/-- The two candidates of the C3/S4 witness: same position and UMI, the
second with a strictly higher mapping quality. -/
def csW3 : List Candidate :=
  [⟨0, 1, 40, some [1], some [9]⟩, ⟨1, 1, 55, some [1], some [9]⟩]

end Dedup

namespace ChunkedGenome

theorem extendStopGo_ge (regions : List Region) :
    ∀ (fuel stop : Nat), stop ≤ extendStopGo regions fuel stop := by
  intro fuel
  induction fuel with
  | zero => intro stop; simp [extendStopGo]
  | succ n ih =>
    intro stop
    simp only [extendStopGo]
    cases hf : findStraddle regions stop with
    | none => exact Nat.le_refl _
    | some r =>
      have hp := List.find?_some hf
      simp only [Bool.and_eq_true, decide_eq_true_eq] at hp
      have : stop ≤ r.2 + 1 := by omega
      exact Nat.le_trans this (ih (r.2 + 1))

theorem extendStop_ge (regions : List Region) (stop : Nat) :
    stop ≤ extendStop regions stop :=
  extendStopGo_ge regions regions.length stop

/-- Strict decrease of a `countP` when the predicate weakens pointwise and
some member satisfies the weak predicate but not the strong one. -/
theorem countP_lt_countP {α : Type} (l : List α) (p q : α → Bool)
    (hpq : ∀ x ∈ l, p x = true → q x = true)
    (a : α) (ha : a ∈ l) (hq : q a = true) (hp : p a = false) :
    l.countP p < l.countP q := by
  induction l with
  | nil => cases ha
  | cons b t ih =>
    have hmono : t.countP p ≤ t.countP q :=
      List.countP_mono_left (fun x hx => hpq x (List.mem_cons_of_mem b hx))
    rcases List.mem_cons.mp ha with hab | hat
    · subst hab
      simp [List.countP_cons, hp, hq]
      omega
    · have hlt := ih (fun x hx => hpq x (List.mem_cons_of_mem b hx)) hat
      simp only [List.countP_cons]
      by_cases hb : p b = true
      · have hqb := hpq b (List.mem_cons_self b t) hb
        simp [hb, hqb]
        omega
      · simp only [Bool.not_eq_true] at hb
        simp [hb]
        split <;> omega

theorem findStraddle_extendStopGo (regions : List Region) :
    ∀ (fuel stop : Nat), openRegionCount regions stop ≤ fuel →
      findStraddle regions (extendStopGo regions fuel stop) = none := by
  intro fuel
  induction fuel with
  | zero =>
    intro stop hcount
    simp only [extendStopGo]
    cases hf : findStraddle regions stop with
    | none => rfl
    | some r =>
      exfalso
      have hp := List.find?_some hf
      have hm := List.mem_of_find?_eq_some hf
      simp only [Bool.and_eq_true, decide_eq_true_eq] at hp
      have : 0 < openRegionCount regions stop := by
        apply List.countP_pos_iff.mpr
        exact ⟨r, hm, by simp [hp.2]⟩
      omega
  | succ n ih =>
    intro stop hcount
    simp only [extendStopGo]
    cases hf : findStraddle regions stop with
    | none => exact hf
    | some r =>
      apply ih
      have hp := List.find?_some hf
      have hm := List.mem_of_find?_eq_some hf
      simp only [Bool.and_eq_true, decide_eq_true_eq] at hp
      have hlt : openRegionCount regions (r.2 + 1) < openRegionCount regions stop := by
        apply countP_lt_countP
        · intro x _ hx
          simp only [decide_eq_true_eq] at hx ⊢
          omega
        · exact hm
        · simp [hp.2]
        · simp
      omega

theorem findStraddle_extendStop (regions : List Region) (stop : Nat) :
    findStraddle regions (extendStop regions stop) = none := by
  apply findStraddle_extendStopGo
  exact List.countP_le_length _

theorem chunksGo_mem_start_ge (regions : List Region) (chrLength : Nat) :
    ∀ (fuel start : Nat) (c : Chunk),
      c ∈ chunksGo regions chrLength fuel start → start ≤ c.start := by
  intro fuel
  induction fuel with
  | zero => intro start c hc; simp [chunksGo] at hc
  | succ n ih =>
    intro start c hc
    simp only [chunksGo] at hc
    by_cases hs : chrLength ≤ start
    · simp [hs] at hc
    · simp only [hs, if_neg, if_false] at hc
      rcases List.mem_cons.mp hc with hc | hc
      · subst hc; exact Nat.le_refl _
      · have h1 := ih _ c hc
        have h2 := extendStop_ge regions (start + chunkSize)
        have hpos : 0 < chunkSize := by simp [chunkSize]
        omega

theorem chunksGo_start_lt (regions : List Region) (chrLength : Nat) :
    ∀ (fuel start : Nat) (c : Chunk),
      c ∈ chunksGo regions chrLength fuel start →
        c.start < c.stop ∧ c.start < chrLength := by
  intro fuel
  induction fuel with
  | zero => intro start c hc; simp [chunksGo] at hc
  | succ n ih =>
    intro start c hc
    simp only [chunksGo] at hc
    by_cases hs : chrLength ≤ start
    · simp [hs] at hc
    · simp only [hs, if_neg, if_false] at hc
      rcases List.mem_cons.mp hc with hc | hc
      · subst hc
        have h2 := extendStop_ge regions (start + chunkSize)
        have hpos : 0 < chunkSize := by simp [chunkSize]
        constructor
        · show start < extendStop regions (start + chunkSize)
          omega
        · show start < chrLength
          omega
      · exact ih _ c hc

theorem chunksGo_pairwise (regions : List Region) (chrLength : Nat) :
    ∀ (fuel start : Nat),
      (chunksGo regions chrLength fuel start).Pairwise
        (fun a b => a.stop ≤ b.start) := by
  intro fuel
  induction fuel with
  | zero => intro start; simp [chunksGo]
  | succ n ih =>
    intro start
    simp only [chunksGo]
    by_cases hs : chrLength ≤ start
    · simp [hs]
    · simp only [hs, if_neg, if_false]
      apply List.Pairwise.cons
      · intro c hc
        exact chunksGo_mem_start_ge regions chrLength n _ c hc
      · exact ih _

/-- Fuel irrelevance for the chunk emission loop: any fuel of at least
`chrLength - start` produces the same chunk list, so the fuelled
`chunksForReference` computes the full emission of the source iterator. -/
theorem chunksGo_fuel_free (regions : List Region) (chrLength : Nat) :
    ∀ (f1 f2 start : Nat), chrLength ≤ start + f1 → chrLength ≤ start + f2 →
      chunksGo regions chrLength f1 start = chunksGo regions chrLength f2 start := by
  intro f1
  induction f1 with
  | zero =>
    intro f2 start h1 h2
    have hs : chrLength ≤ start := by omega
    cases f2 with
    | zero => rfl
    | succ m => simp [chunksGo, hs]
  | succ n ih =>
    intro f2 start h1 h2
    cases f2 with
    | zero =>
      have hs : chrLength ≤ start := by omega
      simp [chunksGo, hs]
    | succ m =>
      simp only [chunksGo]
      by_cases hs : chrLength ≤ start
      · simp [hs]
      · simp only [hs, if_neg, if_false]
        have hstop := extendStop_ge regions (start + chunkSize)
        have hpos : 0 < chunkSize := by simp [chunkSize]
        have := ih m (extendStop regions (start + chunkSize)) (by omega) (by omega)
        rw [this]

end ChunkedGenome

namespace Intervals

theorem mem_points (x : Nat) :
    ∀ (l : List (Nat × Nat)), x ∈ points l ↔ ∃ iv ∈ l, iv.1 ≤ x ∧ x < iv.2 := by
  intro l
  induction l with
  | nil => simp [points]
  | cons iv rest ih =>
    simp [points, Finset.mem_union, Finset.mem_Ico, ih]

theorem points_perm {l1 l2 : List (Nat × Nat)} (h : l1.Perm l2) :
    points l1 = points l2 := by
  apply Finset.ext
  intro x
  rw [mem_points, mem_points]
  constructor
  · rintro ⟨iv, hm, hx⟩; exact ⟨iv, h.mem_iff.mp hm, hx⟩
  · rintro ⟨iv, hm, hx⟩; exact ⟨iv, h.mem_iff.mpr hm, hx⟩

theorem insertIv_perm (a : Nat × Nat) :
    ∀ (l : List (Nat × Nat)), (insertIv a l).Perm (a :: l) := by
  intro l
  induction l with
  | nil => simp [insertIv]
  | cons b t ih =>
    simp only [insertIv]
    by_cases h : ivLe a b = true
    · simp [h]
    · simp only [h, if_false, Bool.false_eq_true]
      exact (ih.cons b).trans (List.Perm.swap a b t)

theorem sortIvs_perm : ∀ (l : List (Nat × Nat)), (sortIvs l).Perm l := by
  intro l
  induction l with
  | nil => simp [sortIvs]
  | cons a t ih => exact (insertIv_perm a (sortIvs t)).trans (ih.cons a)

theorem ivLe_total (a b : Nat × Nat) : ivLe a b = true ∨ ivLe b a = true := by
  simp only [ivLe, Bool.or_eq_true, Bool.and_eq_true, decide_eq_true_eq]
  omega

theorem ivLe_trans {a b c : Nat × Nat} (h1 : ivLe a b = true) (h2 : ivLe b c = true) :
    ivLe a c = true := by
  simp only [ivLe, Bool.or_eq_true, Bool.and_eq_true, decide_eq_true_eq] at h1 h2 ⊢
  omega

theorem pairwise_insertIv (a : Nat × Nat) :
    ∀ (l : List (Nat × Nat)), l.Pairwise (fun x y => ivLe x y = true) →
      (insertIv a l).Pairwise (fun x y => ivLe x y = true) := by
  intro l
  induction l with
  | nil => intro _; simp [insertIv]
  | cons b t ih =>
    intro hp
    rcases List.pairwise_cons.mp hp with ⟨hb, ht⟩
    simp only [insertIv]
    by_cases h : ivLe a b = true
    · simp only [h, if_true]
      apply List.pairwise_cons.mpr
      refine ⟨?_, hp⟩
      intro x hx
      rcases List.mem_cons.mp hx with rfl | hx
      · exact h
      · exact ivLe_trans h (hb x hx)
    · simp only [h, if_false, Bool.false_eq_true]
      apply List.pairwise_cons.mpr
      constructor
      · intro x hx
        rcases List.mem_cons.mp ((insertIv_perm a t).mem_iff.mp hx) with hxa | hx
        · subst hxa
          rcases ivLe_total x b with h1 | h1
          · exact absurd h1 h
          · exact h1
        · exact hb x hx
      · exact ih ht

theorem pairwise_sortIvs (l : List (Nat × Nat)) :
    (sortIvs l).Pairwise (fun x y => ivLe x y = true) := by
  induction l with
  | nil => simp [sortIvs]
  | cons a t ih => exact pairwise_insertIv a (sortIvs t) ih

/-- Correctness of the exact sweep on a start-sorted list: it computes the
cardinality of the current run joined with all remaining points. -/
theorem sweepNat_spec :
    ∀ (l : List (Nat × Nat)) (cs ce : Nat),
      (∀ iv ∈ l, cs ≤ iv.1) →
      (∀ iv ∈ l, iv.1 ≤ iv.2) →
      cs ≤ ce →
      l.Pairwise (fun a b => a.1 ≤ b.1) →
      sweepNat cs ce l = (Finset.Ico cs ce ∪ points l).card := by
  intro l
  induction l with
  | nil =>
    intro cs ce _ _ _ _
    simp [sweepNat, points, Nat.card_Ico]
  | cons iv rest ih =>
    intro cs ce hge hwf hcs hpair
    obtain ⟨s, e⟩ := iv
    rcases List.pairwise_cons.mp hpair with ⟨hhead, htail⟩
    have hcss : cs ≤ s := hge (s, e) (List.mem_cons_self _ _)
    have hse : s ≤ e := hwf (s, e) (List.mem_cons_self _ _)
    simp only [sweepNat, points]
    by_cases hmerge : s ≤ ce
    · simp only [hmerge, if_true]
      have hrge : ∀ x ∈ rest, cs ≤ x.1 := by
        intro x hx; exact hge x (List.mem_cons_of_mem _ hx)
      have hrwf : ∀ x ∈ rest, x.1 ≤ x.2 := by
        intro x hx; exact hwf x (List.mem_cons_of_mem _ hx)
      rw [ih cs (max ce e) hrge hrwf (Nat.le_trans hcs (Nat.le_max_left _ _)) htail]
      have hIco : Finset.Ico cs (max ce e) = Finset.Ico cs ce ∪ Finset.Ico s e := by
        apply Finset.ext
        intro x
        simp only [Finset.mem_union, Finset.mem_Ico]
        omega
      rw [hIco, Finset.union_assoc]
    · simp only [hmerge, if_false]
      have hce_s : ce < s := by omega
      have hrge : ∀ x ∈ rest, s ≤ x.1 := fun x hx => hhead x hx
      have hrwf : ∀ x ∈ rest, x.1 ≤ x.2 := by
        intro x hx; exact hwf x (List.mem_cons_of_mem _ hx)
      rw [ih s e hrge hrwf hse htail]
      have hdisjQ :
          Disjoint (Finset.Ico cs ce) (Finset.Ico s e ∪ points rest) := by
        rw [Finset.disjoint_left]
        intro x hx hx2
        have hxce : x < ce := (Finset.mem_Ico.mp hx).2
        rcases Finset.mem_union.mp hx2 with hx2 | hx2
        · have := (Finset.mem_Ico.mp hx2).1
          omega
        · rcases (mem_points x rest).mp hx2 with ⟨iv2, hm, hx3⟩
          have := hrge iv2 hm
          omega
      rw [Finset.card_union_of_disjoint hdisjQ, Nat.card_Ico]

/-- With well-formed `u32` intervals the wrapping sweep agrees with the
exact sweep (no `u32` underflow and no `usize` wrap occur). -/
theorem sweepU_eq_sweepNat :
    ∀ (l : List (Nat × Nat)) (cs ce total : Nat),
      cs ≤ ce → ce < U32 →
      (∀ iv ∈ l, iv.1 ≤ iv.2) →
      (∀ iv ∈ l, iv.2 < U32) →
      sweepU cs ce total l = (total + sweepNat cs ce l) % U64 := by
  intro l
  induction l with
  | nil =>
    intro cs ce total hcs hce _ _
    simp only [sweepU, sweepNat]
    have hsub : sub32 ce cs = ce - cs := by
      have h1 : ce % U32 = ce := Nat.mod_eq_of_lt hce
      have h2 : cs % U32 = cs := Nat.mod_eq_of_lt (by omega)
      have h3 : ce - cs < U32 := by omega
      simp only [sub32, h1, h2]
      have : ce + U32 - cs = U32 + (ce - cs) := by omega
      rw [this, Nat.add_mod_left, Nat.mod_eq_of_lt h3]
    rw [hsub]
  | cons iv rest ih =>
    intro cs ce total hcs hce hwf hbound
    obtain ⟨s, e⟩ := iv
    have hse : s ≤ e := hwf (s, e) (List.mem_cons_self _ _)
    have heb : e < U32 := hbound (s, e) (List.mem_cons_self _ _)
    have hrwf : ∀ x ∈ rest, x.1 ≤ x.2 := by
      intro x hx; exact hwf x (List.mem_cons_of_mem _ hx)
    have hrb : ∀ x ∈ rest, x.2 < U32 := by
      intro x hx; exact hbound x (List.mem_cons_of_mem _ hx)
    simp only [sweepU, sweepNat]
    by_cases hmerge : s ≤ ce
    · simp only [hmerge, if_true]
      exact ih cs (max ce e) total (Nat.le_trans hcs (Nat.le_max_left _ _))
        (by omega) hrwf hrb
    · simp only [hmerge, if_false]
      have hsub : sub32 ce cs = ce - cs := by
        have h1 : ce % U32 = ce := Nat.mod_eq_of_lt hce
        have h2 : cs % U32 = cs := Nat.mod_eq_of_lt (by omega)
        have h3 : ce - cs < U32 := by omega
        simp only [sub32, h1, h2]
        have : ce + U32 - cs = U32 + (ce - cs) := by omega
        rw [this, Nat.add_mod_left, Nat.mod_eq_of_lt h3]
      rw [hsub, ih s e _ hse heb hrwf hrb, Nat.mod_add_mod, Nat.add_assoc]

/-- All points of a family of `u32` intervals fit below `U32`, bounding the
union's cardinality. -/
theorem card_union_lt_U64 (cs ce : Nat) (l : List (Nat × Nat))
    (hce : ce < U32) (hb : ∀ iv ∈ l, iv.2 < U32) :
    (Finset.Ico cs ce ∪ points l).card < U64 := by
  have hsub : Finset.Ico cs ce ∪ points l ⊆ Finset.range U32 := by
    intro x hx
    rw [Finset.mem_range]
    rcases Finset.mem_union.mp hx with hx | hx
    · have := (Finset.mem_Ico.mp hx).2
      omega
    · rcases (mem_points x l).mp hx with ⟨iv, hm, hx2⟩
      have := hb iv hm
      omega
  have h1 := Finset.card_le_card hsub
  rw [Finset.card_range] at h1
  have : U32 < U64 := by simp [U32, U64]
  omega

end Intervals

namespace Dedup

theorem alLookup_alStore_self {κ : Type} [DecidableEq κ] {α : Type}
    (k : κ) (v : α) : ∀ (m : List (κ × α)), alLookup k (alStore k v m) = some v := by
  intro m
  induction m with
  | nil => simp [alStore, alLookup]
  | cons kv rest ih =>
    obtain ⟨k2, v2⟩ := kv
    simp only [alStore]
    by_cases h : k2 = k
    · simp [alLookup, h]
    · simp [alLookup, h, ih]

theorem alLookup_alStore_ne {κ : Type} [DecidableEq κ] {α : Type}
    (k k2 : κ) (v : α) (hne : k2 ≠ k) :
    ∀ (m : List (κ × α)), alLookup k (alStore k2 v m) = alLookup k m := by
  intro m
  induction m with
  | nil => simp [alStore, alLookup, hne]
  | cons kv rest ih =>
    obtain ⟨k3, v3⟩ := kv
    simp only [alStore]
    by_cases h : k3 = k2
    · subst h
      simp [alLookup, hne]
    · simp only [h, if_false]
      by_cases h2 : k3 = k
      · simp [alLookup, h2]
      · simp [alLookup, h2, ih]

theorem alLookup_contest_ne {κ : Type} [DecidableEq κ]
    (map : List (κ × (Nat × MappingQuality))) (k k2 : κ) (i : Nat)
    (mq : MappingQuality) (hne : k2 ≠ k) :
    alLookup k (contest map k2 i mq).2 = alLookup k map := by
  simp only [contest]
  cases alLookup k2 map with
  | none => simp [alLookup_alStore_ne k k2 _ hne]
  | some v =>
    obtain ⟨oi, omq⟩ := v
    by_cases h : mqGtB mq omq = true
    · simp [h, alLookup_alStore_ne k k2 _ hne]
    · simp [h]

theorem mqGtB_irrefl (a : MappingQuality) : mqGtB a a = false := by
  simp only [mqGtB, Bool.or_eq_false_iff, Bool.and_eq_false_iff]
  constructor
  · simp
  · right
    simp

theorem mqGtB_step (t old new : MappingQuality)
    (h1 : mqGtB new old = true) (h2 : mqGtB t old = false) :
    mqGtB t new = false ∧ mqGtB new t = true := by
  simp only [mqGtB, Bool.or_eq_true, Bool.and_eq_true, decide_eq_true_eq,
    Bool.or_eq_false_iff, Bool.and_eq_false_iff, decide_eq_false_iff_not] at h1 h2 ⊢
  omega

theorem getElem?_some_lt {α : Type} :
    ∀ (l : List α) (n : Nat) (a : α), l[n]? = some a → n < l.length := by
  intro l n a h
  rcases Nat.lt_or_ge n l.length with hlt | hge
  · exact hlt
  · rw [List.getElem?_eq_none hge] at h
    cases h

theorem contestMany_snoc {κ : Type} [DecidableEq κ]
    (c : κ × Nat × MappingQuality) :
    ∀ (cs : List (κ × Nat × MappingQuality))
      (map : List (κ × (Nat × MappingQuality))),
      contestMany map (cs ++ [c]) = (contest (contestMany map cs) c.1 c.2.1 c.2.2).2 := by
  intro cs
  induction cs with
  | nil => intro map; simp [contestMany]
  | cons d rest ih =>
    intro map
    simp only [List.cons_append, contestMany]
    exact ih _

theorem contestMany_lookup_same {κ : Type} [DecidableEq κ] (k : κ) :
    ∀ (cs : List (κ × Nat × MappingQuality))
      (map : List (κ × (Nat × MappingQuality))),
      (cs.filter (fun c => decide (c.1 = k))) = [] →
      alLookup k (contestMany map cs) = alLookup k map := by
  intro cs
  induction cs with
  | nil => intro map _; simp [contestMany]
  | cons d rest ih =>
    intro map hf
    simp only [List.filter_cons] at hf
    by_cases hd : d.1 = k
    · simp [hd] at hf
    · have hdec : (decide (d.1 = k)) = false := by simp [hd]
      simp only [hdec, Bool.false_eq_true, if_false] at hf
      simp only [contestMany]
      rw [ih _ hf, alLookup_contest_ne _ _ _ _ _ hd]

theorem contestMany_winner {κ : Type} [DecidableEq κ] (k : κ)
    (cs : List (κ × Nat × MappingQuality)) :
    ∀ (map : List (κ × (Nat × MappingQuality))),
      alLookup k map = none →
      (cs.filter (fun c => decide (c.1 = k))) ≠ [] →
      ∃ (j : Nat) (w : κ × Nat × MappingQuality),
        (cs.filter (fun c => decide (c.1 = k)))[j]? = some w ∧
        alLookup k (contestMany map cs) = some w.2 ∧
        (∀ (t : Nat) (v : κ × Nat × MappingQuality),
          (cs.filter (fun c => decide (c.1 = k)))[t]? = some v →
          mqGtB v.2.2 w.2.2 = false) ∧
        (∀ (t : Nat) (v : κ × Nat × MappingQuality), t < j →
          (cs.filter (fun c => decide (c.1 = k)))[t]? = some v →
          mqGtB w.2.2 v.2.2 = true) := by
  induction cs using List.reverseRecOn with
  | nil => intro map _ hne; simp at hne
  | append_singleton cs c ih =>
    intro map hnone hne
    rw [contestMany_snoc]
    by_cases hck : c.1 = k
    · have hfilter :
          (cs ++ [c]).filter (fun c => decide (c.1 = k)) =
            cs.filter (fun c => decide (c.1 = k)) ++ [c] := by
        rw [List.filter_append]
        simp [List.filter, hck]
      by_cases hsub : cs.filter (fun c => decide (c.1 = k)) = []
      · -- first candidate with this key: a miss, inserted as `New`
        have hlook : alLookup k (contestMany map cs) = none := by
          rw [contestMany_lookup_same k cs map hsub, hnone]
        refine ⟨0, c, ?_, ?_, ?_, ?_⟩
        · simp [hfilter, hsub]
        · simp only [contest, hlook, hck]
          exact alLookup_alStore_self _ _ _
        · intro t v hv
          rw [hfilter, hsub] at hv
          simp only [List.nil_append] at hv
          have ht := getElem?_some_lt _ _ _ hv
          simp only [List.length_cons, List.length_nil] at ht
          interval_cases t
          · simp at hv
            subst hv
            exact mqGtB_irrefl _
        · intro t v ht hv
          omega
      · obtain ⟨j, w, hw, hlook, hmax, hfirst⟩ := ih map hnone hsub
        have hjlt := getElem?_some_lt _ _ _ hw
        by_cases hgt : mqGtB c.2.2 w.2.2 = true
        · -- strictly better: evicts, becomes the stored representative
          refine ⟨(cs.filter (fun c => decide (c.1 = k))).length, c, ?_, ?_, ?_, ?_⟩
          · rw [hfilter]
            exact List.getElem?_concat_length _ _
          · simp only [contest, hlook, hck, hgt, if_true]
            exact alLookup_alStore_self _ _ _
          · intro t v hv
            rw [hfilter] at hv
            rcases Nat.lt_or_ge t (cs.filter (fun c => decide (c.1 = k))).length
              with htl | htl
            · rw [List.getElem?_append_left htl] at hv
              exact (mqGtB_step _ _ _ hgt (hmax t v hv)).1
            · rcases Nat.eq_or_lt_of_le htl with htl2 | htl2
              · rw [← htl2, List.getElem?_concat_length] at hv
                cases hv
                exact mqGtB_irrefl _
              · rw [List.getElem?_eq_none (by simp; omega)] at hv
                cases hv
          · intro t v ht hv
            rw [hfilter, List.getElem?_append_left ht] at hv
            exact (mqGtB_step _ _ _ hgt (hmax t v hv)).2
        · -- not strictly better: `Duplicated`, stored entry survives
          refine ⟨j, w, ?_, ?_, ?_, ?_⟩
          · rw [hfilter, List.getElem?_append_left hjlt]
            exact hw
          · rw [Bool.not_eq_true] at hgt
            simp only [contest, hlook, hck, hgt, Bool.false_eq_true, if_false]
          · intro t v hv
            rw [hfilter] at hv
            rcases Nat.lt_or_ge t (cs.filter (fun c => decide (c.1 = k))).length
              with htl | htl
            · rw [List.getElem?_append_left htl] at hv
              exact hmax t v hv
            · rcases Nat.eq_or_lt_of_le htl with htl2 | htl2
              · rw [← htl2, List.getElem?_concat_length] at hv
                cases hv
                simpa using hgt
              · rw [List.getElem?_eq_none (by simp; omega)] at hv
                cases hv
          · intro t v ht hv
            rw [hfilter, List.getElem?_append_left (by omega)] at hv
            exact hfirst t v ht hv
    · -- a candidate with a different key leaves this key's entry alone
      have hfilter :
          (cs ++ [c]).filter (fun c => decide (c.1 = k)) =
            cs.filter (fun c => decide (c.1 = k)) := by
        rw [List.filter_append]
        simp [List.filter, hck]
      rw [hfilter] at hne ⊢
      obtain ⟨j, w, hw, hlook, hmax, hfirst⟩ := ih map hnone hne
      refine ⟨j, w, hw, ?_, hmax, hfirst⟩
      rw [alLookup_contest_ne _ _ _ _ _ hck]
      exact hlook

end Dedup

namespace Barcodes

theorem findClosestScan_eq_find (maxHamming : Nat) (part : Bytes) :
    ∀ wl : Whitelist, (∀ e ∈ wl, e.length = part.length) →
      findClosestScan maxHamming part wl =
        .ok (wl.find? (fun e => decide (mismatchCount e part ≤ maxHamming))) := by
  intro wl
  induction wl with
  | nil => intro _; simp [findClosestScan]
  | cons entry rest ih =>
    intro hlen
    have he : entry.length = part.length := hlen entry (List.mem_cons_self _ _)
    simp only [findClosestScan, hamming, he, if_true, List.find?_cons]
    by_cases hd : mismatchCount entry part ≤ maxHamming
    · simp [hd]
    · simp only [hd, if_false, decide_eq_true_eq]
      rw [ih (fun e hx => hlen e (List.mem_cons_of_mem _ hx))]
      simp [hd]

theorem findClosestScan_no_crash (maxHamming : Nat) (part : Bytes)
    (wl : Whitelist) (hlen : ∀ e ∈ wl, e.length = part.length) :
    findClosestScan maxHamming part wl ≠ .crash := by
  rw [findClosestScan_eq_find maxHamming part wl hlen]
  intro h
  cases h

theorem findClosestByHamming_no_crash (maxHamming : Nat) (part : Bytes)
    (wl : Whitelist) (hlen : ∀ e ∈ wl, e.length = part.length) :
    findClosestByHamming maxHamming wl part ≠ .crash := by
  simp only [findClosestByHamming]
  by_cases h0 : maxHamming = 0
  · simp only [h0, if_true]
    intro h
    cases h
  · simp only [h0, if_false]
    exact findClosestScan_no_crash maxHamming part wl hlen

theorem correctGo_no_crash (cb : CellBarcodes) :
    ∀ (pairs : List (Bytes × Whitelist)) (out : Bytes),
      (∀ pw ∈ pairs, pw.1 ∈ pw.2 ∨ ∀ e ∈ pw.2, e.length = pw.1.length) →
      correctGo cb out pairs ≠ .crash := by
  intro pairs
  induction pairs with
  | nil =>
    intro out _
    simp only [correctGo]
    intro h
    cases h
  | cons pw rest ih =>
    intro out hlen
    obtain ⟨part, wl⟩ := pw
    simp only [correctGo, correctStep]
    by_cases hmem : wl.contains part
    · simp only [hmem, if_true]
      exact ih _ (fun x hx => hlen x (List.mem_cons_of_mem _ hx))
    · simp only [hmem, Bool.false_eq_true, if_false]
      have hwl : ∀ e ∈ wl, e.length = part.length := by
        rcases hlen (part, wl) (List.mem_cons_self _ _) with hm | hl
        · exact absurd (List.elem_eq_true_of_mem hm) (by simpa using hmem)
        · exact hl
      cases hf : findClosestByHamming cb.maxHamming wl part with
      | crash => exact absurd hf (findClosestByHamming_no_crash _ _ _ hwl)
      | ok res =>
        cases res with
        | none =>
          intro h
          cases h
        | some corrected =>
          exact ih _ (fun x hx => hlen x (List.mem_cons_of_mem _ hx))

/-- Totality of `CellBarcodes::correct` under the length precondition:
when every whitelist entry that could be scanned for a non-member segment
has that segment's byte length, `correct` cannot panic. -/
theorem correct_no_crash (cb : CellBarcodes) (barcode : Bytes)
    (hlen : ∀ pw ∈ (splitOnByte cb.separatorChar barcode).zip cb.whitelists,
      pw.1 ∈ pw.2 ∨ ∀ e ∈ pw.2, e.length = pw.1.length) :
    correct cb barcode ≠ .crash :=
  correctGo_no_crash cb _ [] hlen

/-- The panic half: a scanned whitelist entry whose length differs from the
segment makes the Hamming computation panic (the scan neither skips the
entry nor returns `None`). -/
theorem findClosestScan_crash (maxHamming : Nat) (part e : Bytes) (suf : Whitelist)
    (hne : e.length ≠ part.length) :
    ∀ pre : Whitelist,
      (∀ p ∈ pre, p.length = part.length ∧ maxHamming < mismatchCount p part) →
      findClosestScan maxHamming part (pre ++ e :: suf) = .crash := by
  intro pre
  induction pre with
  | nil =>
    intro _
    simp [findClosestScan, hamming, hne]
  | cons p pre2 ih =>
    intro hpre
    obtain ⟨hp, hd⟩ := hpre p (List.mem_cons_self _ _)
    simp only [List.cons_append, findClosestScan, hamming, hp, if_true]
    have : ¬ mismatchCount p part ≤ maxHamming := by omega
    simp only [this, if_false]
    exact ih (fun x hx => hpre x (List.mem_cons_of_mem _ hx))

theorem findClosestByHamming_crash (maxHamming : Nat) (part e : Bytes)
    (pre suf : Whitelist) (h0 : 0 < maxHamming)
    (hne : e.length ≠ part.length)
    (hpre : ∀ p ∈ pre, p.length = part.length ∧ maxHamming < mismatchCount p part) :
    findClosestByHamming maxHamming (pre ++ e :: suf) part = .crash := by
  simp only [findClosestByHamming]
  have : ¬ maxHamming = 0 := by omega
  simp only [this, if_false]
  exact findClosestScan_crash maxHamming part e suf hne pre hpre

end Barcodes

namespace Dedup

theorem acceptMany_umi (cs : List Candidate) :
    ∀ (map : List (Bytes × (Nat × MappingQuality))),
      (∀ c ∈ cs, c.umi.isSome) →
      acceptMany (.umi map) cs =
        .ok (.umi (contestMany map (cs.map (fun c =>
          (c.umi.getD [], c.thisIndex, recordMq c.noOfAlignments c.mapq))))) := by
  induction cs with
  | nil => intro map _; simp [acceptMany, contestMany, List.map_nil]
  | cons c rest ih =>
    intro map hsome
    cases hu : c.umi with
    | none =>
      exact absurd (hsome c (List.mem_cons_self _ _)) (by simp [hu])
    | some u =>
      simp only [acceptMany, acceptRead, hu, List.map_cons, contestMany]
      rw [ih _ (fun x hx => hsome x (List.mem_cons_of_mem _ hx))]
      simp [hu]

theorem acceptMany_singleCell (cs : List Candidate) :
    ∀ (map : List ((Bytes × Bytes) × (Nat × MappingQuality))),
      (∀ c ∈ cs, c.umi.isSome) →
      (∀ c ∈ cs, c.barcode.isSome) →
      acceptMany (.singleCell map) cs =
        .ok (.singleCell (contestMany map (cs.map (fun c =>
          ((c.umi.getD [], c.barcode.getD []), c.thisIndex,
            recordMq c.noOfAlignments c.mapq))))) := by
  induction cs with
  | nil => intro map _ _; simp [acceptMany, contestMany, List.map_nil]
  | cons c rest ih =>
    intro map hsome hbc
    cases hu : c.umi with
    | none =>
      exact absurd (hsome c (List.mem_cons_self _ _)) (by simp [hu])
    | some u =>
      cases hb : c.barcode with
      | none =>
        exact absurd (hbc c (List.mem_cons_self _ _)) (by simp [hb])
      | some bc =>
        simp only [acceptMany, acceptRead, hu, hb, List.map_cons, contestMany]
        rw [ih _ (fun x hx => hsome x (List.mem_cons_of_mem _ hx))
          (fun x hx => hbc x (List.mem_cons_of_mem _ hx))]
        simp [hu, hb]

end Dedup

namespace Engine

theorem statSum_bumpStat (sc : String → Nat) (k : String)
    (hk : k ∈ statCategories) : statSum (bumpStat sc k) = statSum sc + 1 := by
  fin_cases hk <;>
    simp [statSum, statCategories, bumpStat] <;> omega

theorem categoryOf_overfetch_iff (r : AnnotatedRead) :
    categoryOf r = "overfetch" ↔ r = .notInRegion := by
  cases r with
  | counted info =>
    simp only [categoryOf]
    cases info.hits.correct.isEmpty <;> cases info.hits.reverse.isEmpty <;>
      simp
  | filtered => simp [categoryOf]
  | notInRegion => simp [categoryOf]
  | duplicate => simp [categoryOf]
  | noBarcode => simp [categoryOf]
  | noUMI => simp [categoryOf]
  | barcodeNotInWhitelist raw => simp [categoryOf]

theorem categoryOf_mem (r : AnnotatedRead) (h : r ≠ .notInRegion) :
    categoryOf r ∈ statCategories := by
  cases r with
  | counted info =>
    simp only [categoryOf, statCategories]
    cases info.hits.correct.isEmpty <;> cases info.hits.reverse.isEmpty <;>
      simp
  | filtered => simp [categoryOf, statCategories]
  | notInRegion => exact absurd rfl h
  | duplicate => simp [categoryOf, statCategories]
  | noBarcode => simp [categoryOf, statCategories]
  | noUMI => simp [categoryOf, statCategories]
  | barcodeNotInWhitelist raw => simp [categoryOf, statCategories]

theorem countOneRead_statCounter_aux (c : CounterPerChunk) (r : AnnotatedRead) :
    (countOneRead c r).statCounter =
      (if categoryOf r = "overfetch" then c.statCounter
       else bumpStat c.statCounter (categoryOf r)) := by
  cases r <;> (simp only [countOneRead]; split <;> rfl)

theorem statSum_countOneRead (c : CounterPerChunk) (r : AnnotatedRead) :
    statSum (countOneRead c r).statCounter =
      statSum c.statCounter + (if r = .notInRegion then 0 else 1) := by
  rw [countOneRead_statCounter_aux]
  by_cases h : r = .notInRegion
  · subst h
    simp [categoryOf]
  · have h2 : categoryOf r ≠ "overfetch" := by
      rw [Ne, categoryOf_overfetch_iff]
      exact h
    simp only [h2, if_false, h]
    rw [statSum_bumpStat _ _ (categoryOf_mem r h)]

theorem statSum_countReads (entries : List (AnnotatedRead × Nat)) :
    ∀ (c : CounterPerChunk),
      statSum (countReads c entries).statCounter + nirOfList entries =
        statSum c.statCounter + entries.length := by
  induction entries with
  | nil => intro c; simp [countReads, nirOfList]
  | cons e rest ih =>
    intro c
    have hstep := statSum_countOneRead c e.1
    have hrest := ih (countOneRead c e.1)
    simp only [countReads, List.foldl_cons] at hrest ⊢
    simp only [nirOfList, List.countP_cons, List.length_cons] at hrest ⊢
    by_cases h : e.1 = AnnotatedRead.notInRegion
    · rw [if_pos h] at hstep
      have hd : (decide (e.1 = AnnotatedRead.notInRegion)) = true := by simp [h]
      simp only [hd, if_true]
      omega
    · rw [if_neg h] at hstep
      have hd : (decide (e.1 = AnnotatedRead.notInRegion)) = false := by simp [h]
      simp only [hd, Bool.false_eq_true, if_false]
      omega

theorem statSum_flushChunk (catcher : List (Int × PerPosition)) :
    ∀ (c : CounterPerChunk),
      statSum (flushChunk c catcher).statCounter + nirCount catcher =
        statSum c.statCounter + totalEntries catcher := by
  induction catcher with
  | nil => intro c; simp [flushChunk, nirCount, totalEntries]
  | cons kv rest ih =>
    intro c
    simp only [flushChunk, List.foldl_cons] at ih ⊢
    have h1 := statSum_countReads kv.2.readsForward c
    have h2 := statSum_countReads kv.2.readsReverse (countReads c kv.2.readsForward)
    have h3 := ih (countReads (countReads c kv.2.readsForward) kv.2.readsReverse)
    simp only [nirCount, totalEntries, List.map_cons, List.sum_cons] at h3 ⊢
    omega

theorem totalEntries_alStore (k : Int) (pp2 pp0 : PerPosition)
    (h0 : ppSize pp0 = 0) :
    ∀ catcher : List (Int × PerPosition),
      totalEntries (Dedup.alStore k pp2 catcher) +
          ppSize ((Dedup.alLookup k catcher).getD pp0) =
        totalEntries catcher + ppSize pp2 := by
  intro catcher
  induction catcher with
  | nil =>
    simp only [Dedup.alStore, Dedup.alLookup, totalEntries, List.map_cons,
      List.map_nil, List.sum_cons, List.sum_nil, Option.getD_none]
    simp only [ppSize] at h0 ⊢
    omega
  | cons kv rest ih =>
    obtain ⟨k2, v⟩ := kv
    simp only [Dedup.alStore, Dedup.alLookup]
    by_cases hk : k2 = k
    · simp only [hk, if_true]
      simp [totalEntries, ppSize]
      omega
    · simp only [hk, if_false]
      simp only [totalEntries, List.map_cons, List.sum_cons] at ih ⊢
      have : ppSize v = v.readsForward.length + v.readsReverse.length := rfl
      omega

theorem applyReadAction_size (pp : PerPosition) (rev : Bool) (org : Nat)
    (act : ReadAction) (d2 : Dedup.DedupPerBucket) (pp2 : PerPosition)
    (h : applyReadAction pp rev org act d2 = .ok pp2) :
    ppSize pp2 = ppSize pp + 1 := by
  cases act with
  | push ann =>
    simp only [applyReadAction] at h
    cases h
    cases rev <;> simp [setRes, ppSize] <;> omega
  | evict idx info =>
    simp only [applyReadAction] at h
    cases hidx : (if rev then pp.readsReverse else pp.readsForward)[idx]? with
    | none => rw [hidx] at h; cases h
    | some old =>
      rw [hidx] at h
      cases h
      cases rev <;> simp [setRes, ppSize, List.length_set] <;> omega

theorem processRead_totalEntries (cfg : Cfg) (st : ChunkState) (read : ReadRec)
    (ann : AnnotatedRead) (st2 : ChunkState)
    (h : processRead cfg st read = .ok (ann, st2)) :
    totalEntries st2.readCatcher = totalEntries st.readCatcher + 1 := by
  simp only [processRead] at h
  split at h
  · cases h
  · rename_i cp pbc heq
    split at h
    · cases h
    · rename_i act d2 heq2
      split at h
      · cases h
      · rename_i pp2 heq3
        cases h
        have hsize := applyReadAction_size _ _ _ _ _ _ heq3
        have hstore := totalEntries_alStore cp pp2
          ⟨[], [], newBucket cfg.dedupMode⟩ rfl st.readCatcher
        simp only [ppSize] at hsize hstore ⊢
        omega

theorem processAll_totalEntries (cfg : Cfg) :
    ∀ (reads : List ReadRec) (st st2 : ChunkState),
      processAll cfg st reads = .ok st2 →
      totalEntries st2.readCatcher = totalEntries st.readCatcher + reads.length := by
  intro reads
  induction reads with
  | nil =>
    intro st st2 h
    simp only [processAll] at h
    cases h
    simp
  | cons read rest ih =>
    intro st st2 h
    simp only [processAll] at h
    split at h
    · cases h
    · rename_i res ann stm heq
      have h1 := processRead_totalEntries cfg st read ann stm heq
      have h2 := ih stm st2 h
      simp only [List.length_cons]
      omega

theorem barcodeStep_inr (cfg : Cfg) (read : ReadRec) (ann : AnnotatedRead)
    (h : decideRead.barcodeStep cfg read = .ok (.inr ann)) :
    ann = .noBarcode ∨ ∃ raw, ann = .barcodeNotInWhitelist raw := by
  simp only [decideRead.barcodeStep] at h
  split at h
  · split at h
    · rename_i uncorrected heq
      split at h
      · cases h
      · cases h
      · cases h
        right
        exact ⟨uncorrected, rfl⟩
    · cases h
      left
      rfl
  · cases h

theorem umiStep_inr (cfg : Cfg) (read : ReadRec) (ann : AnnotatedRead)
    (h : decideRead.umiStep cfg read = .inr ann) : ann = .noUMI := by
  simp only [decideRead.umiStep] at h
  split at h
  · split at h
    · cases h
    · cases h
      rfl
  · cases h

theorem decideRead_ann (cfg : Cfg) (dedup : Dedup.DedupPerBucket) (resLen : Nat)
    (cpos pbc : Int) (read : ReadRec) (act : ReadAction)
    (d2 : Dedup.DedupPerBucket)
    (h : decideRead cfg dedup resLen cpos pbc read = .ok (act, d2)) :
    annOfAction act = .notInRegion ↔
      boundsReject cfg.chunkStart cfg.chunkStop pbc = true := by
  by_cases hb : boundsReject cfg.chunkStart cfg.chunkStop pbc = true
  · simp only [decideRead, hb, if_true] at h
    cases h
    simp [annOfAction, hb]
  · constructor
    · intro hann
      exfalso
      simp only [decideRead, hb, Bool.false_eq_true, if_false] at h
      split at h
      · cases h
        simp [annOfAction] at hann
      · split at h
        · cases h
        · rename_i ann2 heq
          cases h
          simp only [annOfAction] at hann
          subst hann
          rcases barcodeStep_inr cfg read _ heq with h1 | ⟨raw, h1⟩ <;> cases h1
        · rename_i barcode heq
          split at h
          · rename_i ann3 heq2
            cases h
            simp only [annOfAction] at hann
            subst hann
            cases umiStep_inr cfg read _ heq2
          · rename_i umi heq2
            split at h
            · cases h
            · rename_i outcome d3 heq3
              split at h <;> cases h <;> simp [annOfAction] at hann
    · intro hbb
      exact absurd hbb hb

theorem satAdd64_max : satAdd64 (Intervals.U64 - 1) 1 = Intervals.U64 - 1 := by
  have hpos : 0 < Intervals.U64 := by simp [Intervals.U64]
  simp only [satAdd64, Nat.min_def]
  split <;> omega

theorem bumpCorrect_fst_max (counter : List (Nat × (Nat × Nat))) (g h : Nat)
    (hmax : ((Dedup.alLookup g counter).getD (0, 0)).1 = Intervals.U64 - 1) :
    ((Dedup.alLookup g (bumpCorrect counter h)).getD (0, 0)).1 =
      Intervals.U64 - 1 := by
  by_cases hgh : h = g
  · subst hgh
    simp only [bumpCorrect, Dedup.alLookup_alStore_self, Option.getD_some]
    rw [hmax] at *
    exact satAdd64_max
  · simp only [bumpCorrect,
      Dedup.alLookup_alStore_ne g h _ (fun hc => hgh hc) _]
    exact hmax

theorem bumpReverse_fst_eq (counter : List (Nat × (Nat × Nat))) (g h : Nat) :
    ((Dedup.alLookup g (bumpReverse counter h)).getD (0, 0)).1 =
      ((Dedup.alLookup g counter).getD (0, 0)).1 := by
  by_cases hgh : h = g
  · subst hgh
    simp only [bumpReverse, Dedup.alLookup_alStore_self, Option.getD_some]
  · simp only [bumpReverse,
      Dedup.alLookup_alStore_ne g h _ (fun hc => hgh hc) _]

theorem bumpReverse_snd_max (counter : List (Nat × (Nat × Nat))) (g h : Nat)
    (hmax : ((Dedup.alLookup g counter).getD (0, 0)).2 = Intervals.U64 - 1) :
    ((Dedup.alLookup g (bumpReverse counter h)).getD (0, 0)).2 =
      Intervals.U64 - 1 := by
  by_cases hgh : h = g
  · subst hgh
    simp only [bumpReverse, Dedup.alLookup_alStore_self, Option.getD_some]
    rw [hmax] at *
    exact satAdd64_max
  · simp only [bumpReverse,
      Dedup.alLookup_alStore_ne g h _ (fun hc => hgh hc) _]
    exact hmax

theorem bumpCorrect_snd_eq (counter : List (Nat × (Nat × Nat))) (g h : Nat) :
    ((Dedup.alLookup g (bumpCorrect counter h)).getD (0, 0)).2 =
      ((Dedup.alLookup g counter).getD (0, 0)).2 := by
  by_cases hgh : h = g
  · subst hgh
    simp only [bumpCorrect, Dedup.alLookup_alStore_self, Option.getD_some]
  · simp only [bumpCorrect,
      Dedup.alLookup_alStore_ne g h _ (fun hc => hgh hc) _]

theorem foldl_bumpCorrect_fst_max (g : Nat) :
    ∀ (gs : List Nat) (counter : List (Nat × (Nat × Nat))),
      ((Dedup.alLookup g counter).getD (0, 0)).1 = Intervals.U64 - 1 →
      ((Dedup.alLookup g (gs.foldl bumpCorrect counter)).getD (0, 0)).1 =
        Intervals.U64 - 1 := by
  intro gs
  induction gs with
  | nil => intro counter hmax; exact hmax
  | cons h rest ih =>
    intro counter hmax
    exact ih _ (bumpCorrect_fst_max counter g h hmax)

theorem foldl_bumpReverse_fst_max (g : Nat) :
    ∀ (gs : List Nat) (counter : List (Nat × (Nat × Nat))),
      ((Dedup.alLookup g counter).getD (0, 0)).1 = Intervals.U64 - 1 →
      ((Dedup.alLookup g (gs.foldl bumpReverse counter)).getD (0, 0)).1 =
        Intervals.U64 - 1 := by
  intro gs
  induction gs with
  | nil => intro counter hmax; exact hmax
  | cons h rest ih =>
    intro counter hmax
    exact ih _ ((bumpReverse_fst_eq counter g h).trans hmax)

theorem foldl_bumpReverse_snd_max (g : Nat) :
    ∀ (gs : List Nat) (counter : List (Nat × (Nat × Nat))),
      ((Dedup.alLookup g counter).getD (0, 0)).2 = Intervals.U64 - 1 →
      ((Dedup.alLookup g (gs.foldl bumpReverse counter)).getD (0, 0)).2 =
        Intervals.U64 - 1 := by
  intro gs
  induction gs with
  | nil => intro counter hmax; exact hmax
  | cons h rest ih =>
    intro counter hmax
    exact ih _ (bumpReverse_snd_max counter g h hmax)

theorem foldl_bumpCorrect_snd_max (g : Nat) :
    ∀ (gs : List Nat) (counter : List (Nat × (Nat × Nat))),
      ((Dedup.alLookup g counter).getD (0, 0)).2 = Intervals.U64 - 1 →
      ((Dedup.alLookup g (gs.foldl bumpCorrect counter)).getD (0, 0)).2 =
        Intervals.U64 - 1 := by
  intro gs
  induction gs with
  | nil => intro counter hmax; exact hmax
  | cons h rest ih =>
    intro counter hmax
    exact ih _ ((bumpCorrect_snd_eq counter g h).trans hmax)

theorem countOneRead_counter_aux (c : CounterPerChunk) (r : AnnotatedRead) :
    (countOneRead c r).counter =
      match r with
      | .counted info =>
        info.hits.reverse.foldl bumpReverse
          (info.hits.correct.foldl bumpCorrect c.counter)
      | _ => c.counter := by
  cases r <;> (simp only [countOneRead]; split <;> rfl)

theorem countOneRead_fst_max (c : CounterPerChunk) (r : AnnotatedRead) (g : Nat)
    (hmax : ((Dedup.alLookup g c.counter).getD (0, 0)).1 = Intervals.U64 - 1) :
    ((Dedup.alLookup g (countOneRead c r).counter).getD (0, 0)).1 =
      Intervals.U64 - 1 := by
  rw [countOneRead_counter_aux]
  cases r with
  | counted info =>
    exact foldl_bumpReverse_fst_max g _ _ (foldl_bumpCorrect_fst_max g _ _ hmax)
  | filtered => exact hmax
  | notInRegion => exact hmax
  | duplicate => exact hmax
  | noBarcode => exact hmax
  | noUMI => exact hmax
  | barcodeNotInWhitelist raw => exact hmax

theorem countOneRead_snd_max (c : CounterPerChunk) (r : AnnotatedRead) (g : Nat)
    (hmax : ((Dedup.alLookup g c.counter).getD (0, 0)).2 = Intervals.U64 - 1) :
    ((Dedup.alLookup g (countOneRead c r).counter).getD (0, 0)).2 =
      Intervals.U64 - 1 := by
  rw [countOneRead_counter_aux]
  cases r with
  | counted info =>
    exact foldl_bumpReverse_snd_max g _ _ (foldl_bumpCorrect_snd_max g _ _ hmax)
  | filtered => exact hmax
  | notInRegion => exact hmax
  | duplicate => exact hmax
  | noBarcode => exact hmax
  | noUMI => exact hmax
  | barcodeNotInWhitelist raw => exact hmax

theorem countReads_fst_max (entries : List (AnnotatedRead × Nat)) :
    ∀ (c : CounterPerChunk) (g : Nat),
      ((Dedup.alLookup g c.counter).getD (0, 0)).1 = Intervals.U64 - 1 →
      ((Dedup.alLookup g (countReads c entries).counter).getD (0, 0)).1 =
        Intervals.U64 - 1 := by
  induction entries with
  | nil => intro c g hmax; exact hmax
  | cons e rest ih =>
    intro c g hmax
    exact ih _ g (countOneRead_fst_max c e.1 g hmax)

theorem countReads_snd_max (entries : List (AnnotatedRead × Nat)) :
    ∀ (c : CounterPerChunk) (g : Nat),
      ((Dedup.alLookup g c.counter).getD (0, 0)).2 = Intervals.U64 - 1 →
      ((Dedup.alLookup g (countReads c entries).counter).getD (0, 0)).2 =
        Intervals.U64 - 1 := by
  induction entries with
  | nil => intro c g hmax; exact hmax
  | cons e rest ih =>
    intro c g hmax
    exact ih _ g (countOneRead_snd_max c e.1 g hmax)

theorem positionPair_pbc (cfg : Cfg) (read : ReadRec) (cp pbc : Int)
    (h : positionPair cfg.bucketMode cfg.maxSkipLen read = .ok (cp, pbc)) :
    pbc = boundsPosition cfg read := by
  cases hbm : cfg.bucketMode with
  | perPosition =>
    rw [hbm] at h
    simp only [positionPair] at h
    by_cases hms : 0 < cfg.maxSkipLen
    · simp only [hms, if_true] at h
      simp only [correctedPos] at h
      split at h
      · cases h
      · rename_i rp heq
        cases h
        split at heq
        · cases heq
        · cases heq
          simp [boundsPosition, hbm, hms]
    · simp only [hms, if_false] at h
      cases h
      simp [boundsPosition, hbm, hms]
  | perReference l =>
    rw [hbm] at h
    simp only [positionPair] at h
    cases h
    simp [boundsPosition, hbm]

theorem boundsReject_iff (a b : Nat) (pbc : Int) :
    boundsReject a b pbc = true ↔
      ((0 < a ∧ pbc < (a : Int)) ∨ (b : Int) ≤ pbc) := by
  simp [boundsReject]

end Engine

namespace Intervals

theorem ivLe_start_le {a b : Nat × Nat} (h : ivLe a b = true) : a.1 ≤ b.1 := by
  simp only [ivLe, Bool.or_eq_true, Bool.and_eq_true, decide_eq_true_eq] at h
  omega

end Intervals

/-- Claim C4 (amended): every chunk emitted by the reference chunker
satisfies `start < stop` and `start < reference length`, and the chunks
for one reference are pairwise non-overlapping and ordered by ascending
start; the original claim's bound `stop ≤ reference length` does not hold
(see the counterexample): the emitted stop is `start + chunk size`,
possibly extended past a region end, and is never clamped to the
reference length. -/
theorem claim_C4_chunker_invariants :
    ∀ (regions : List ChunkedGenome.Region) (chrLength : Nat),
      (∀ c ∈ ChunkedGenome.chunksForReference regions chrLength,
        c.start < c.stop ∧ c.start < chrLength) ∧
      (ChunkedGenome.chunksForReference regions chrLength).Pairwise
        (fun a b => a.stop ≤ b.start) :=
  fun regions chrLength =>
    ⟨fun c hc => ChunkedGenome.chunksGo_start_lt regions chrLength chrLength 0 c hc,
     ChunkedGenome.chunksGo_pairwise regions chrLength chrLength 0⟩

/-- Witness for claim C4: the invariants evaluated on the single chunk of a
5-base reference with no regions. -/
theorem claim_C4_witness :
    (ChunkedGenome.Chunk.mk 0 10000000).start <
        (ChunkedGenome.Chunk.mk 0 10000000).stop ∧
      (ChunkedGenome.Chunk.mk 0 10000000).start < 5 :=
  (claim_C4_chunker_invariants [] 5).1 (ChunkedGenome.Chunk.mk 0 10000000)
    (by decide)

/-- Counterexample for claim C4 as stated: a reference of length 5 with no
regions yields the single chunk `[0, 10000000)`, whose stop exceeds the
reference length, refuting `stop ≤ reference length`. -/
theorem claim_C4_counterexample :
    ChunkedGenome.chunksForReference [] 5 = [ChunkedGenome.Chunk.mk 0 10000000] ∧
      ¬ (10000000 ≤ 5) := by
  constructor
  · rfl
  · decide

/-- Claim C9: the chunker's stop-extension loop terminates on every finite
region list and is sound: the extended stop is at least the tentative
stop, no region straddles the extended stop, and whenever some region
straddles the tentative stop the single extension step (to one past that
region's end) moves the stop strictly forward. -/
theorem claim_C9_extension_terminates :
    ∀ (regions : List ChunkedGenome.Region) (stop : Nat),
      stop ≤ ChunkedGenome.extendStop regions stop ∧
      ChunkedGenome.findStraddle regions (ChunkedGenome.extendStop regions stop) = none ∧
      (∀ r : ChunkedGenome.Region,
        ChunkedGenome.findStraddle regions stop = some r → stop < r.2 + 1) := by
  intro regions stop
  refine ⟨ChunkedGenome.extendStop_ge regions stop,
    ChunkedGenome.findStraddle_extendStop regions stop, ?_⟩
  intro r hr
  have hp := List.find?_some hr
  simp only [Bool.and_eq_true, decide_eq_true_eq] at hp
  omega

/-- Witness for claim C9 on the region list `[(0, 5)]` and tentative stop 3. -/
theorem claim_C9_witness :
    3 ≤ ChunkedGenome.extendStop [((0 : Nat), (5 : Nat))] 3 ∧
      ChunkedGenome.findStraddle [((0 : Nat), (5 : Nat))]
        (ChunkedGenome.extendStop [((0 : Nat), (5 : Nat))] 3) = none ∧
      3 < 5 + 1 :=
  ⟨(claim_C9_extension_terminates [(0, 5)] 3).1,
   (claim_C9_extension_terminates [(0, 5)] 3).2.1,
   (claim_C9_extension_terminates [(0, 5)] 3).2.2 (0, 5) (by decide)⟩

/-- Claim C5 (amended): for every list of well-formed `u32` half-open
intervals (start ≤ end), `merged_interval_length` returns the cardinality
of the union of the integer points of the intervals — including the empty
list and overlapping, nested, or duplicated intervals.  The original
claim's "every list" fails for a reversed interval (start > end), where
the `u32` subtraction `current_end - current_start` underflows (see the
counterexample) instead of contributing zero points. -/
theorem claim_C5_merged_interval_length :
    ∀ (ivs : List (Nat × Nat)),
      (∀ iv ∈ ivs, iv.1 ≤ iv.2) →
      (∀ iv ∈ ivs, iv.2 < Intervals.U32) →
      Intervals.mergedIntervalLength ivs = (Intervals.points ivs).card := by
  intro ivs hwf hbound
  have hperm := Intervals.sortIvs_perm ivs
  cases hs : Intervals.sortIvs ivs with
  | nil =>
    rw [hs] at hperm
    have hnil : ivs = [] := hperm.symm.eq_nil
    subst hnil
    simp [Intervals.mergedIntervalLength, Intervals.sortIvs, Intervals.points]
  | cons iv rest =>
    rw [hs] at hperm
    have hmem : ∀ x ∈ iv :: rest, x ∈ ivs := fun x hx => hperm.mem_iff.mp hx
    have hwf2 : ∀ x ∈ iv :: rest, x.1 ≤ x.2 := fun x hx => hwf x (hmem x hx)
    have hbound2 : ∀ x ∈ iv :: rest, x.2 < Intervals.U32 :=
      fun x hx => hbound x (hmem x hx)
    have hpair : (iv :: rest).Pairwise (fun a b => Intervals.ivLe a b = true) := by
      have := Intervals.pairwise_sortIvs ivs
      rw [hs] at this
      exact this
    rcases List.pairwise_cons.mp hpair with ⟨hhead, htail⟩
    have hivwf : iv.1 ≤ iv.2 := hwf2 iv (List.mem_cons_self _ _)
    have hivbound : iv.2 < Intervals.U32 := hbound2 iv (List.mem_cons_self _ _)
    have hrestwf : ∀ x ∈ rest, x.1 ≤ x.2 :=
      fun x hx => hwf2 x (List.mem_cons_of_mem _ hx)
    have hrestbound : ∀ x ∈ rest, x.2 < Intervals.U32 :=
      fun x hx => hbound2 x (List.mem_cons_of_mem _ hx)
    have hrestge : ∀ x ∈ rest, iv.1 ≤ x.1 := by
      intro x hx
      have h1 := hhead x hx
      have h2 := Intervals.ivLe_start_le h1
      exact h2
    have hrestpair : rest.Pairwise (fun a b => a.1 ≤ b.1) :=
      htail.imp (fun h => Intervals.ivLe_start_le h)
    simp only [Intervals.mergedIntervalLength, hs]
    rw [Intervals.sweepU_eq_sweepNat rest iv.1 iv.2 0 hivwf hivbound hrestwf hrestbound]
    rw [Intervals.sweepNat_spec rest iv.1 iv.2 hrestge hrestwf hivwf hrestpair]
    rw [Nat.zero_add]
    rw [Nat.mod_eq_of_lt
      (Intervals.card_union_lt_U64 iv.1 iv.2 rest hivbound hrestbound)]
    have hpts : Intervals.points ivs = Intervals.points (iv :: rest) :=
      Intervals.points_perm hperm.symm
    rw [hpts]
    simp [Intervals.points]

/-- Witness for claim C5 on the overlapping list
`[(0,10), (5,15), (10,25)]` (union `[0,25)`, 25 points). -/
theorem claim_C5_witness :
    Intervals.mergedIntervalLength [((0 : Nat), (10 : Nat)), (5, 15), (10, 25)] =
      (Intervals.points [((0 : Nat), (10 : Nat)), (5, 15), (10, 25)]).card :=
  claim_C5_merged_interval_length [(0, 10), (5, 15), (10, 25)]
    (by decide) (by decide)

/-- Counterexample for claim C5 as stated: on the reversed interval
`[5, 3)` (an empty set of points) the `u32` subtraction underflows and
`merged_interval_length` returns 4294967294 instead of 0. -/
theorem claim_C5_counterexample :
    Intervals.mergedIntervalLength [((5 : Nat), (3 : Nat))] = 4294967294 ∧
      (Intervals.points [((5 : Nat), (3 : Nat))]).card = 0 ∧
      (4294967294 : Nat) ≠ 0 := by
  refine ⟨?_, ?_, by decide⟩
  · rfl
  · simp [Intervals.points, Nat.card_Ico]

/-- Claim C6 (amended): relative to a *fixed* iteration order of the
whitelist, correction is deterministic: for `max_hamming > 0` and
equal-length entries the scan returns exactly the first entry in that
order with Hamming distance at most `max_hamming`.  The original claim
fails because the whitelist is a hash set whose iteration order is
neither documented nor frozen, so the corrected entry is not determined
by the whitelist contents alone (see the counterexample). -/
theorem claim_C6_first_match_in_order :
    ∀ (maxHamming : Nat) (wl : Barcodes.Whitelist) (part : Bytes),
      0 < maxHamming →
      (∀ e ∈ wl, e.length = part.length) →
      Barcodes.findClosestByHamming maxHamming wl part =
        .ok (wl.find? (fun e => decide (Barcodes.mismatchCount e part ≤ maxHamming))) := by
  intro maxHamming wl part h0 hlen
  simp only [Barcodes.findClosestByHamming]
  have hne : ¬ maxHamming = 0 := by omega
  simp only [hne, if_false]
  exact Barcodes.findClosestScan_eq_find maxHamming part wl hlen

/-- Witness for claim C6 on whitelist `[AB]` and segment `AA`. -/
theorem claim_C6_witness :
    Barcodes.findClosestByHamming 1 [[65, 66]] [65, 65] =
      .ok (([[65, 66]] : Barcodes.Whitelist).find?
        (fun e => decide (Barcodes.mismatchCount e [65, 65] ≤ 1))) :=
  claim_C6_first_match_in_order 1 [[65, 66]] [65, 65] (by decide) (by decide)

/-- Counterexample for claim C6 as stated: two enumeration orders of the
same whitelist contents (`AAAA`, `AAAT`), the same segment `AAAC` at
distance 1 from both entries, the same separator and `max_hamming = 1` —
yet `correct` returns different corrected entries, so no iteration-order-
independent (let alone documented and frozen) result exists. -/
theorem claim_C6_counterexample :
    Barcodes.wlA.Perm Barcodes.wlB ∧
      Barcodes.correct Barcodes.cbA Barcodes.segAAAC = .ok (some [65, 65, 65, 65]) ∧
      Barcodes.correct Barcodes.cbB Barcodes.segAAAC = .ok (some [65, 65, 65, 84]) ∧
      ([65, 65, 65, 65] : Bytes) ≠ [65, 65, 65, 84] := by
  refine ⟨?_, by rfl, by rfl, by decide⟩
  exact List.Perm.swap [65, 65, 65, 84] [65, 65, 65, 65] []

/-- Claim C10: `CellBarcodes::correct` is total under the precondition
that every whitelist entry scanned for a non-member segment has the
segment's byte length (first part) — and only under it: as soon as the
scan of a non-member segment reaches an entry of a different length, the
Hamming-distance computation panics rather than skipping the entry or
returning `None` (second part). -/
theorem claim_C10_correct_totality :
    (∀ (cb : Barcodes.CellBarcodes) (barcode : Bytes),
      (∀ pw ∈ (Barcodes.splitOnByte cb.separatorChar barcode).zip cb.whitelists,
        pw.1 ∈ pw.2 ∨ ∀ e ∈ pw.2, e.length = pw.1.length) →
      Barcodes.correct cb barcode ≠ .crash) ∧
    (∀ (maxHamming : Nat) (part e : Bytes) (pre suf : Barcodes.Whitelist),
      0 < maxHamming →
      e.length ≠ part.length →
      (∀ p ∈ pre, p.length = part.length ∧ maxHamming < Barcodes.mismatchCount p part) →
      Barcodes.findClosestByHamming maxHamming (pre ++ e :: suf) part = .crash) :=
  ⟨fun cb barcode hlen => Barcodes.correct_no_crash cb barcode hlen,
   fun maxHamming part e pre suf h0 hne hpre =>
     Barcodes.findClosestByHamming_crash maxHamming part e pre suf h0 hne hpre⟩

/-- Witness for claim C10: totality on the equal-length corrector of the
C6 instance, and the panic on a whitelist whose first entry is one byte
short. -/
theorem claim_C10_witness :
    Barcodes.correct Barcodes.cbA Barcodes.segAAAC ≠ .crash ∧
      Barcodes.findClosestByHamming 1 ([] ++ [65, 65, 65] :: []) Barcodes.segAAAC =
        .crash :=
  ⟨claim_C10_correct_totality.1 Barcodes.cbA Barcodes.segAAAC (by decide),
   claim_C10_correct_totality.2 1 Barcodes.segAAAC [65, 65, 65] [] []
     (by decide) (by decide) (by simp)⟩

/-- Claim C3: in umi mode (first part) and singlecell mode (second part),
after any sequence of `accept_read` calls against a fresh bucket, the
entry stored for a fixed identity key is one of the candidates with that
key; its priority — (alignment count clamped to 255, mapping quality),
compared lexicographically — is maximal among all candidates with that
key, and every earlier candidate with that key has a strictly smaller
priority, i.e. the first-arrived candidate of maximal priority is
retained and a later candidate evicts only when strictly greater. -/
theorem claim_C3_dedup_monotone :
    (∀ (cs : List Dedup.Candidate) (k : Bytes),
      (∀ c ∈ cs, c.umi.isSome) →
      (Dedup.keyedCandidatesUmi cs).filter (fun c => decide (c.1 = k)) ≠ [] →
      ∃ (final : List (Bytes × (Nat × Dedup.MappingQuality))) (j : Nat)
        (w : Bytes × Nat × Dedup.MappingQuality),
        Dedup.acceptMany (.umi []) cs = .ok (.umi final) ∧
        ((Dedup.keyedCandidatesUmi cs).filter (fun c => decide (c.1 = k)))[j]? =
          some w ∧
        Dedup.alLookup k final = some w.2 ∧
        (∀ (t : Nat) (v : Bytes × Nat × Dedup.MappingQuality),
          ((Dedup.keyedCandidatesUmi cs).filter (fun c => decide (c.1 = k)))[t]? =
            some v →
          Dedup.mqGtB v.2.2 w.2.2 = false) ∧
        (∀ (t : Nat) (v : Bytes × Nat × Dedup.MappingQuality), t < j →
          ((Dedup.keyedCandidatesUmi cs).filter (fun c => decide (c.1 = k)))[t]? =
            some v →
          Dedup.mqGtB w.2.2 v.2.2 = true)) ∧
    (∀ (cs : List Dedup.Candidate) (k : Bytes × Bytes),
      (∀ c ∈ cs, c.umi.isSome) →
      (∀ c ∈ cs, c.barcode.isSome) →
      (Dedup.keyedCandidatesSC cs).filter (fun c => decide (c.1 = k)) ≠ [] →
      ∃ (final : List ((Bytes × Bytes) × (Nat × Dedup.MappingQuality))) (j : Nat)
        (w : (Bytes × Bytes) × Nat × Dedup.MappingQuality),
        Dedup.acceptMany (.singleCell []) cs = .ok (.singleCell final) ∧
        ((Dedup.keyedCandidatesSC cs).filter (fun c => decide (c.1 = k)))[j]? =
          some w ∧
        Dedup.alLookup k final = some w.2 ∧
        (∀ (t : Nat) (v : (Bytes × Bytes) × Nat × Dedup.MappingQuality),
          ((Dedup.keyedCandidatesSC cs).filter (fun c => decide (c.1 = k)))[t]? =
            some v →
          Dedup.mqGtB v.2.2 w.2.2 = false) ∧
        (∀ (t : Nat) (v : (Bytes × Bytes) × Nat × Dedup.MappingQuality), t < j →
          ((Dedup.keyedCandidatesSC cs).filter (fun c => decide (c.1 = k)))[t]? =
            some v →
          Dedup.mqGtB w.2.2 v.2.2 = true)) := by
  constructor
  · intro cs k hsome hne
    have hacc := Dedup.acceptMany_umi cs [] hsome
    obtain ⟨j, w, hw, hlook, hmax, hfirst⟩ :=
      Dedup.contestMany_winner k (Dedup.keyedCandidatesUmi cs) [] rfl hne
    exact ⟨Dedup.contestMany [] (Dedup.keyedCandidatesUmi cs), j, w, hacc, hw,
      hlook, hmax, hfirst⟩
  · intro cs k hsome hbc hne
    have hacc := Dedup.acceptMany_singleCell cs [] hsome hbc
    obtain ⟨j, w, hw, hlook, hmax, hfirst⟩ :=
      Dedup.contestMany_winner k (Dedup.keyedCandidatesSC cs) [] rfl hne
    exact ⟨Dedup.contestMany [] (Dedup.keyedCandidatesSC cs), j, w, hacc, hw,
      hlook, hmax, hfirst⟩

/-- Witness for claim C3: the S4 scenario — two candidates with the same
UMI, alignment count 1, mapping qualities 40 then 55 — run through the
umi-mode contest. -/
theorem claim_C3_witness :
    ∃ (final : List (Bytes × (Nat × Dedup.MappingQuality))) (j : Nat)
      (w : Bytes × Nat × Dedup.MappingQuality),
      Dedup.acceptMany (.umi []) Dedup.csW3 = .ok (.umi final) ∧
      ((Dedup.keyedCandidatesUmi Dedup.csW3).filter
        (fun c => decide (c.1 = [1])))[j]? = some w ∧
      Dedup.alLookup [1] final = some w.2 ∧
      (∀ (t : Nat) (v : Bytes × Nat × Dedup.MappingQuality),
        ((Dedup.keyedCandidatesUmi Dedup.csW3).filter
          (fun c => decide (c.1 = [1])))[t]? = some v →
        Dedup.mqGtB v.2.2 w.2.2 = false) ∧
      (∀ (t : Nat) (v : Bytes × Nat × Dedup.MappingQuality), t < j →
        ((Dedup.keyedCandidatesUmi Dedup.csW3).filter
          (fun c => decide (c.1 = [1])))[t]? = some v →
        Dedup.mqGtB w.2.2 v.2.2 = true) :=
  claim_C3_dedup_monotone.1 Dedup.csW3 [1] (by decide) (by decide)

/-- Claim C1 (amended): a successfully processed record is recorded as
`NotInRegion` exactly when its bounds-check position lies outside
`[chunk.start, chunk.stop)`, except that for the first chunk of a
reference (`chunk.start = 0`) positions below the start are accepted; the
bounds-check position is the raw position under per-reference bucketing
or when clipping correction is off, but — contrary to the original claim
— it is the clipping-corrected position (raw minus leading soft-clip)
under per-position bucketing with clipping correction enabled (see the
counterexample). -/
theorem claim_C1_bounds_position :
    ∀ (cfg : Engine.Cfg) (st : Engine.ChunkState) (read : Engine.ReadRec)
      (ann : Engine.AnnotatedRead) (st2 : Engine.ChunkState),
      Engine.processRead cfg st read = .ok (ann, st2) →
      (ann = .notInRegion ↔
        ((0 < cfg.chunkStart ∧
            Engine.boundsPosition cfg read < (cfg.chunkStart : Int)) ∨
          (cfg.chunkStop : Int) ≤ Engine.boundsPosition cfg read)) := by
  intro cfg st read ann st2 h
  simp only [Engine.processRead] at h
  split at h
  · cases h
  · rename_i cp pbc heq
    split at h
    · cases h
    · rename_i act d2 heq2
      split at h
      · cases h
      · rename_i pp2 heq3
        cases h
        have hpbc := Engine.positionPair_pbc cfg read cp pbc heq
        have hiff := Engine.decideRead_ann cfg _ _ cp pbc read act d2 heq2
        rw [Engine.boundsReject_iff, hpbc] at hiff
        exact hiff

/-- Witness for claim C1 on the concrete clipped record of `cfgC1`. -/
theorem claim_C1_witness :
    Engine.AnnotatedRead.notInRegion = Engine.AnnotatedRead.notInRegion ↔
      ((0 < Engine.cfgC1.chunkStart ∧
          Engine.boundsPosition Engine.cfgC1 Engine.readC1 <
            (Engine.cfgC1.chunkStart : Int)) ∨
        (Engine.cfgC1.chunkStop : Int) ≤
          Engine.boundsPosition Engine.cfgC1 Engine.readC1) :=
  claim_C1_bounds_position Engine.cfgC1 Engine.initialState Engine.readC1
    Engine.AnnotatedRead.notInRegion Engine.stC1 (by rfl)

/-- Counterexample for claim C1 as stated: `readC1`'s raw position 1000005
lies inside `[1000000, 2000000)`, yet with clipping correction enabled the
record is recorded as `NotInRegion` (its corrected position 999995 is
below the chunk start), refuting that the raw position decides the bounds
check for every record. -/
theorem claim_C1_counterexample :
    Engine.processRead Engine.cfgC1 Engine.initialState Engine.readC1 =
      .ok (Engine.AnnotatedRead.notInRegion, Engine.stC1) ∧
      Engine.cfgC1.chunkStart ≤ Engine.readC1.pos ∧
      Engine.readC1.pos < Engine.cfgC1.chunkStop := by
  refine ⟨by rfl, by decide, by decide⟩

/-- Claim C2: count conservation — for every successfully processed record
stream, every record receives exactly one annotation, each non-`NotInRegion`
annotation increments exactly one statistics category at flush time and
`NotInRegion` increments none, so after flushing all buckets the sum over
the statistics categories plus the number of `NotInRegion` entries equals
the number of processed records. -/
theorem claim_C2_count_conservation :
    ∀ (cfg : Engine.Cfg) (reads : List Engine.ReadRec) (st : Engine.ChunkState),
      Engine.processAll cfg Engine.initialState reads = .ok st →
      Engine.statSum
          (Engine.flushChunk Engine.perChunkFresh st.readCatcher).statCounter +
        Engine.nirCount st.readCatcher = reads.length := by
  intro cfg reads st h
  have h1 := Engine.processAll_totalEntries cfg reads Engine.initialState st h
  have h2 := Engine.statSum_flushChunk st.readCatcher Engine.perChunkFresh
  have h3 : Engine.statSum Engine.perChunkFresh.statCounter = 0 := rfl
  have h4 : Engine.totalEntries Engine.initialState.readCatcher = 0 := rfl
  omega

/-- Witness for claim C2: two records — one counted, one overfetched
(`NotInRegion`) — sum to stream length 2. -/
theorem claim_C2_witness :
    Engine.statSum
        (Engine.flushChunk Engine.perChunkFresh Engine.stW2.readCatcher).statCounter +
      Engine.nirCount Engine.stW2.readCatcher = 2 :=
  claim_C2_count_conservation Engine.cfgW2 [Engine.readW1, Engine.readW2]
    Engine.stW2 (by rfl)

/-- Claim C7 (code-bug evidence): with an `n_in_umi`/`remove` filter
configured and a UMI extractor present, a read whose extracted UMI
contains the ambiguity byte `N` is nevertheless recorded as `Counted`:
the engine only ever calls `remove_read` (which `NInUmi` does not
override, src/filters.rs:195 and src/engine.rs:1189-1196), never
`remove_read_after_annotation` — although the latter, had it been called,
would have removed the read. -/
theorem claim_C7_n_in_umi_not_applied :
    Engine.processRead Engine.cfgC7 Engine.initialState Engine.readC7 =
      .ok (.counted Engine.infoC7, Engine.stC7) ∧
      Engine.infoC7.umi = some [78, 65] ∧
      Engine.removeReadAfterAnnotation (.nInUmi .remove) Engine.readC7 none
        (some [78, 65]) [0] [] = true ∧
      Engine.removeRead (.nInUmi .remove) Engine.readC7 = false := by
  refine ⟨by rfl, by rfl, by rfl, by rfl⟩

/-- Claim C8 (amended): within a chunk the per-region tallies saturate:
a `count_correct` or `count_reverse` already at the maximum representable
value stays there under any further counting (`saturating_add`).  The
original claim's second half fails: the cross-chunk merge adds with a
plain (wrapping) `+=` and does not saturate (see the counterexample). -/
theorem claim_C8_saturation_in_chunk :
    ∀ (c : Engine.CounterPerChunk) (entries : List (Engine.AnnotatedRead × Nat))
      (g : Nat),
      (((Dedup.alLookup g c.counter).getD (0, 0)).1 = Intervals.U64 - 1 →
        ((Dedup.alLookup g (Engine.countReads c entries).counter).getD (0, 0)).1 =
          Intervals.U64 - 1) ∧
      (((Dedup.alLookup g c.counter).getD (0, 0)).2 = Intervals.U64 - 1 →
        ((Dedup.alLookup g (Engine.countReads c entries).counter).getD (0, 0)).2 =
          Intervals.U64 - 1) :=
  fun c entries g =>
    ⟨fun hm => Engine.countReads_fst_max entries c g hm,
     fun hm => Engine.countReads_snd_max entries c g hm⟩

/-- Witness for claim C8: a gene-3 forward count at the maximum stays at
the maximum after counting a further forward hit of gene 3. -/
theorem claim_C8_witness :
    ((Dedup.alLookup 3
        (Engine.countReads Engine.cW8 Engine.entriesW8).counter).getD (0, 0)).1 =
      Intervals.U64 - 1 :=
  (claim_C8_saturation_in_chunk Engine.cW8 Engine.entriesW8 3).1 (by rfl)

/-- Counterexample for claim C8 as stated: merging a per-chunk tally of 1
into a global count already at the maximum wraps to 0 instead of staying
at the maximum. -/
theorem claim_C8_counterexample :
    Engine.mergeCounts [(7, (Intervals.U64 - 1, 0))] [(7, (1, 0))] =
        [(7, (0, 0))] ∧
      (0 : Nat) ≠ Intervals.U64 - 1 := by
  constructor
  · rfl
  · decide
